import Mathlib

/-!
# hillplayfair.c : Hill cipher followed by Playfair cipher

A shallow embedding of `src/hillplayfair.c` and proofs about it.

Conventions of the embedding.

* A C string is the list of its characters before the terminating NUL; a
  `char` is the integer value of the character (`'A'` is 65, `'I'` 73,
  `'J'` 74, `'X'` 88, `'Z'` 90, `'a'` 97, `'z'` 122).
* `int` is a 32 bit two's complement integer: the result of `+` and `*` on
  `int` is wrapped by `wrap32` (what the compile line of the file header
  produces on the target machine); `%` on `int` truncates towards zero
  (`Int.tmod`).
* A loop whose termination is not structural carries a fuel argument, and a
  function whose behaviour is not defined on some input (it reads outside the
  string, uses an unassigned variable, or does not terminate) returns
  `Option`, with `none` for that case.
-/

namespace HillPlayfair

/-! ## Characters and machine integers -/

/-- The characters of a string literal as C `char` values. -/
def str (s : String) : List Int := s.toList.map (fun c => (c.toNat : Int))

/-- The value of a C `int` expression after 32 bit two's complement wrap-around. -/
def wrap32 (x : Int) : Int := (x + 2147483648) % 4294967296 - 2147483648

/-- The conversion `(char)x` of an `int` to a (signed, 8 bit) `char`. -/
def toChar (x : Int) : Int := (x + 128) % 256 - 128

/-- The C library `isalpha` in the "C" locale. -/
def isalpha (c : Int) : Bool := (65 ≤ c && c ≤ 90) || (97 ≤ c && c ≤ 122)

/-- The C library `toupper` in the "C" locale. -/
def toupper (c : Int) : Int := if 97 ≤ c ∧ c ≤ 122 then c - 32 else c

/-- An uppercase letter `'A'`..`'Z'`. -/
def IsUpper (c : Int) : Prop := 65 ≤ c ∧ c ≤ 90

instance (c : Int) : Decidable (IsUpper c) := by unfold IsUpper; infer_instance

/-! ## hill_encrypt (lines 68-80) -/

/-- The inner loop `for (k = 0; k < n; k++) sum += matrix[j][k] * temp[k];`
starting from `sum = 0`, for the row `row = matrix[j]`. -/
def hill_row_sum (n : Nat) (row : Nat → Int) (temp : List Int) : Int :=
  (List.range n).foldl (fun sum k => wrap32 (sum + wrap32 (row k * temp.getD k 0))) 0

/-- The body of the outer loop of `hill_encrypt` on one block `text[i .. i+n)`:
`temp[j] = text[i+j] - 'A'`, then `res[j] = (sum % 26) + 'A'` for each row, and
the characters written back are `(char)res[j]`. -/
def hill_block (n : Nat) (matrix : Nat → Nat → Int) (block : List Int) : List Int :=
  let temp := block.map (fun c => c - 65)
  (List.range n).map (fun j => toChar (wrap32 ((hill_row_sum n (matrix j) temp).tmod 26 + 65)))

/-- The outer loop `for (i = 0; i < len; i += n)` of `hill_encrypt`, on the part
of the text from index `i` on. A last block shorter than `n` makes the code read
and write past the end of the string: `none`. Running out of fuel is `none`. -/
def hill_loop (n : Nat) (matrix : Nat → Nat → Int) : Nat → List Int → Option (List Int)
  | 0, text => if text = [] then some [] else none
  | fuel + 1, text =>
    if text = [] then some []
    else if text.length < n then none
    else (hill_loop n matrix fuel (text.drop n)).map (fun rest => hill_block n matrix (text.take n) ++ rest)

/-- The function `hill_encrypt(n, matrix, text)`: the text after the call. The
loop runs at most `len` times when `n ≥ 1`; for `n = 0` and a non-empty text it
does not terminate. -/
def hill_encrypt (n : Nat) (matrix : Nat → Nat → Int) (text : List Int) : Option (List Int) :=
  hill_loop n matrix text.length text

/-- The n×n identity matrix. -/
def identity_matrix : Nat → Nat → Int := fun j k => if j = k then 1 else 0

/-- A key matrix given by its rows. -/
def matrix_of (rows : List (List Int)) : Nat → Nat → Int := fun j k => (rows.getD j []).getD k 0

/-! ## The normalizer loop of main (lines 170-175) -/

/-- The loop `for (i = 0; raw_plain[i]; i++) if (isalpha(raw_plain[i]))
hill_input[h_idx++] = toupper(raw_plain[i]);` : the state is the part of
`hill_input` written so far (`h_idx` is its length). -/
def normalize (raw_plain : List Int) : List Int :=
  raw_plain.foldl (fun hill_input ch =>
    if isalpha ch then hill_input ++ [toChar (toupper ch)] else hill_input) []

/-! ## The padding loop of main (lines 191-194) -/

/-- The loop `while (strlen(hill_input) % n != 0) { hill_input[h_idx++] = 'X';
hill_input[h_idx] = '\0'; }`. With `n = 0` the remainder is not defined: `none`.
Running out of fuel is `none`. -/
def pad_loop (n : Nat) : Nat → List Int → Option (List Int)
  | 0, hill_input =>
    if n = 0 then none else if hill_input.length % n ≠ 0 then none else some hill_input
  | fuel + 1, hill_input =>
    if n = 0 then none
    else if hill_input.length % n ≠ 0 then pad_loop n fuel (hill_input ++ [88])
    else some hill_input

/-- The padding loop with as much fuel as it can use: fewer than `n` characters
are appended. -/
def pad (n : Nat) (hill_input : List Int) : Option (List Int) := pad_loop n n hill_input

/-! ## sanitize_keyword (lines 52-66) -/

/-- The body of the loop of `sanitize_keyword` for the character `ch = key[i]`.
The state is the array `used` and the characters `key[0 .. write_idx)` written so
far. The write index never passes the read index, so a write never changes a
character that is still to be read. -/
def sanitize_step (st : (Int → Bool) × List Int) (ch : Int) : (Int → Bool) × List Int :=
  let c := toChar (toupper ch)
  if isalpha c then
    let c := if c = 74 then 73 else c
    if !st.1 (c - 65) then
      (fun i => if i = c - 65 then true else st.1 i, st.2 ++ [c])
    else st
  else st

/-- The function `sanitize_keyword(key)`: the string `key` after the call. -/
def sanitize_keyword (key : List Int) : List Int :=
  (key.foldl sanitize_step (fun _ => false, [])).2

/-! ## build_table (lines 82-100) -/

/-- The local state of `build_table`: the array `used`, the cursor `r`, `c` and the
table, where a cell that has not been written is `none`. The table is indexed by
any `r` and `c`, so that a write outside the 5×5 grid is recorded as well. -/
structure TableState where
  used : Int → Bool
  r : Nat
  c : Nat
  table : Nat → Nat → Option Int

/-- The guarded statement of both loops of `build_table`:
`if (!used[idx]) { table[r][c++] = ch; used[idx] = 1; if (c == 5) { c = 0; r++; } }`. -/
def table_put (st : TableState) (idx : Int) (ch : Int) : TableState :=
  if !st.used idx then
    let table : Nat → Nat → Option Int :=
      fun r c => if r = st.r ∧ c = st.c then some ch else st.table r c
    let c := st.c + 1
    let used : Int → Bool := fun i => if i = idx then true else st.used i
    if c = 5 then { used := used, r := st.r + 1, c := 0, table := table }
    else { used := used, r := st.r, c := c, table := table }
  else st

/-- The state of `build_table` after its two loops: first the characters of `key`,
then `i = 0 .. 25`. -/
def build_table_state (key : List Int) : TableState :=
  let st0 : TableState :=
    { used := fun i => decide (i = 74 - 65), r := 0, c := 0, table := fun _ _ => none }
  let st1 := key.foldl (fun st ch => table_put st (ch - 65) ch) st0
  (List.range 26).foldl (fun st (i : Nat) => table_put st (i : Int) (toChar ((i : Int) + 65))) st1

/-- The function `build_table(key, table)`: the table after the call. -/
def build_table (key : List Int) : Nat → Nat → Option Int := (build_table_state key).table

/-- The 25 cells of the grid in row-major order. -/
def read_table (table : Nat → Nat → Option Int) : List (Option Int) :=
  (List.range 5).flatMap (fun r => (List.range 5).map (fun c => table r c))

/-- The table as `playfair_encrypt` reads it after `build_table` has filled it. A cell
that was never written has no defined value; it is read as 0 here. -/
def table_chars (table : Nat → Nat → Option Int) : Nat → Nat → Int :=
  fun r c => (table r c).getD 0

/-! ## playfair_preprocess (lines 102-127) -/

/-- The loop `while (i < len)` of `playfair_preprocess`; `res` holds the characters
`res[0 .. j)` written so far. Running out of fuel is `none`. -/
def playfair_preprocess_loop (input : List Int) : Nat → Nat → List Int → Option (List Int)
  | 0, i, res => if i < input.length then none else some res
  | fuel + 1, i, res =>
    if i < input.length then
      let a := input.getD i 0
      let a := if a = 74 then 73 else a
      let res := res ++ [a]
      if i + 1 < input.length then
        let b := input.getD (i + 1) 0
        let b := if b = 74 then 73 else b
        if a = b then playfair_preprocess_loop input fuel (i + 1) (res ++ [88])
        else playfair_preprocess_loop input fuel (i + 2) (res ++ [b])
      else playfair_preprocess_loop input fuel (i + 1) (res ++ [88])
    else some res

/-- The function `playfair_preprocess(input)`; every turn of the loop advances `i`,
so `len` turns are enough. -/
def playfair_preprocess (input : List Int) : Option (List Int) :=
  playfair_preprocess_loop input input.length 0 []

/-! ## playfair_encrypt (lines 129-150) -/

/-- The search loops of `playfair_encrypt` for the characters `x = text[k]` and
`y = text[k+1]`: the state is `(r1, c1)` and `(r2, c2)`, `none` while unassigned. -/
def playfair_find (table : Nat → Nat → Int) (x y : Int) :
    Option (Nat × Nat) × Option (Nat × Nat) :=
  (List.range 5).foldl (fun st r =>
    (List.range 5).foldl (fun st c =>
      let st := if table r c = x then (some (r, c), st.2) else st
      if table r c = y then (st.1, some (r, c)) else st) st) (none, none)

/-- The body of the loop of `playfair_encrypt` for one digraph: the new values of
`text[k]` and `text[k+1]`. Using an unassigned position is `none`. -/
def playfair_pair (table : Nat → Nat → Int) (a b : Int) : Option (Int × Int) :=
  match playfair_find table a b with
  | (some (r1, c1), some (r2, c2)) =>
    if r1 = r2 then some (table r1 ((c1 + 1) % 5), table r2 ((c2 + 1) % 5))
    else if c1 = c2 then some (table ((r1 + 1) % 5) c1, table ((r2 + 1) % 5) c2)
    else some (table r1 c2, table r2 c1)
  | _ => none

/-- The function `playfair_encrypt(text, table)`: the text after the call. On a text
of odd length the last turn reads the terminator as `text[k+1]` and overwrites it:
`none`. -/
def playfair_encrypt (table : Nat → Nat → Int) : List Int → Option (List Int)
  | [] => some []
  | [_] => none
  | a :: b :: rest =>
    match playfair_pair table a b, playfair_encrypt table rest with
    | some (x, y), some out => some (x :: y :: out)
    | _, _ => none

/-! ## main (lines 152-222) : the pipeline -/

/-- The texts that `main` computes and prints, in order. -/
structure Trace where
  preprocessed : List Int
  padded : List Int
  hill : List Int
  keyword : List Int
  table : Nat → Nat → Option Int
  pf_input : List Int
  playfair : List Int

/-- The computation of `main` once the key dimension `n`, the key matrix, the plaintext
and the keyword have been read: normalizer loop, padding loop, `hill_encrypt`,
`sanitize_keyword`, `build_table`, `playfair_preprocess`, `playfair_encrypt`. -/
def main (n : Nat) (matrix : Nat → Nat → Int) (raw_plain keyword_raw : List Int) :
    Option Trace :=
  let hill_input := normalize raw_plain
  match pad n hill_input with
  | none => none
  | some padded =>
    match hill_encrypt n matrix padded with
    | none => none
    | some hill =>
      let keyword := sanitize_keyword keyword_raw
      let table := build_table keyword
      match playfair_preprocess hill with
      | none => none
      | some pf_input =>
        match playfair_encrypt (table_chars table) pf_input with
        | none => none
        | some playfair =>
          some { preprocessed := hill_input, padded := padded, hill := hill,
                 keyword := keyword, table := table, pf_input := pf_input,
                 playfair := playfair }

/-! ## Definitions used in the statements and proofs -/

/-- The exact value of one output character of a block. -/
def hill_exact (n : Nat) (matrix : Nat → Nat → Int) (block : List Int) (j : Nat) : Int :=
  65 + (∑ k ∈ Finset.range n, matrix j k * (block.getD k 0 - 65)) % 26

/-- The text written by `m` turns of the outer loop of `hill_encrypt`. -/
def hill_blocks (n : Nat) (matrix : Nat → Nat → Int) : Nat → List Int → List Int
  | 0, _ => []
  | m + 1, text => hill_block n matrix (text.take n) ++ hill_blocks n matrix m (text.drop n)

/-- The J-to-I folding `if (a == 'J') a = 'I';`. -/
def foldJ (c : Int) : Int := if c = 74 then 73 else c

/-- The digraph split in the words of the specification: with current letter `a` and
next letter `b`, emit (a,'X') and advance by 1 when `b` exists and `a = b`; emit (a,b)
and advance by 2 when `b` exists and `a ≠ b`; emit (a,'X') and advance by 1 when `a` is
the last letter. -/
def digraph_split : List Int → List Int
  | [] => []
  | [a] => [a, 88]
  | a :: b :: rest =>
    if a = b then a :: 88 :: digraph_split (b :: rest) else a :: b :: digraph_split rest

/-- A value of type `char`. -/
def IsChar (c : Int) : Prop := -128 ≤ c ∧ c < 128

instance (c : Int) : Decidable (IsChar c) := by unfold IsChar; infer_instance

/-- Keeping only the first occurrence of each element, in the original order. -/
def keep_first : List Int → List Int
  | [] => []
  | x :: xs => x :: (keep_first xs).filter (fun y => y ≠ x)

/-- The sanitized keyword in the words of the specification: the alphabetic characters,
uppercased, with J replaced by I, keeping only the first occurrence of each letter. -/
def sanitize_spec (key : List Int) : List Int :=
  keep_first (((key.filter isalpha).map toupper).map foldJ)

/-- The letters A–Z in ascending order. -/
def letters26 : List Int := (List.range 26).map (fun (i : Nat) => (i : Int) + 65)

/-- The letters A–Z without J, in ascending order. -/
def letters25 : List Int := letters26.filter (fun c => c ≠ 74)

/-- The cells of the 5×5 grid in the order in which the search loops of
`playfair_encrypt` visit them. -/
def grid : List (Nat × Nat) := (List.range 5).flatMap (fun r => (List.range 5).map (fun c => (r, c)))

/-- The body of the inner search loop of `playfair_encrypt` at the cell `p`. -/
def find_step (table : Nat → Nat → Int) (x y : Int)
    (st : Option (Nat × Nat) × Option (Nat × Nat)) (p : Nat × Nat) :
    Option (Nat × Nat) × Option (Nat × Nat) :=
  let st := if table p.1 p.2 = x then (some (p.1, p.2), st.2) else st
  if table p.1 p.2 = y then (st.1, some (p.1, p.2)) else st

/-- The state of `build_table` after the characters `w` have been written: the cursor
is at cell number `w.length` in row-major order, cell number p holds `w[p]`, nothing else
is written, and `used` marks J and the letters of `w`. -/
def TableInv (st : TableState) (w : List Int) : Prop :=
  st.c < 5 ∧ 5 * st.r + st.c = w.length
    ∧ (∀ r c, st.table r c = if c < 5 then w[5 * r + c]? else none)
    ∧ (∀ i : Int, st.used i = true ↔ i = 9 ∨ i + 65 ∈ w)

/-- The letters that `build_table` writes after the keyword, in the words of the
specification: all letters of A–Z other than J that are not in the keyword, in
ascending order. -/
def filler (key : List Int) : List Int := letters25.filter (fun c => decide (c ∉ key))

/-- The five rows of the grid. -/
def table_rows (table : Nat → Nat → Option Int) : List (List (Option Int)) :=
  (List.range 5).map (fun r => (List.range 5).map (fun c => table r c))

/-- The i-th letter of A–Z without J, for i < 25. -/
def letter_of (i : Nat) : Int := if i < 9 then 65 + (i : Int) else 66 + (i : Int)

/-- The two cells that the body of the loop of `playfair_encrypt` reads for a digraph
whose letters are at the cells `p` and `q`. -/
def playfair_pos (p q : Nat × Nat) : (Nat × Nat) × (Nat × Nat) :=
  if p.1 = q.1 then ((p.1, (p.2 + 1) % 5), (q.1, (q.2 + 1) % 5))
  else if p.2 = q.2 then (((p.1 + 1) % 5, p.2), ((q.1 + 1) % 5, q.2))
  else ((p.1, q.2), (q.1, p.2))

/-- The cells from which `playfair_pos` leads to the cells `p` and `q`. -/
def playfair_pos_inv (p q : Nat × Nat) : (Nat × Nat) × (Nat × Nat) :=
  if p.1 = q.1 then ((p.1, (p.2 + 4) % 5), (q.1, (q.2 + 4) % 5))
  else if p.2 = q.2 then (((p.1 + 4) % 5, p.2), ((q.1 + 4) % 5, q.2))
  else ((p.1, q.2), (q.1, p.2))

/-! ## Test evaluations -/

example : str "AZ" = [65, 90] := by decide
example : hill_encrypt 2 identity_matrix (str "HELLOX") = some (str "HELLOX") := by decide
example : hill_encrypt 2 (matrix_of [[3, 3], [2, 5]]) (str "HELP") = some (str "HIAT") := by decide
example : hill_encrypt 1 (matrix_of [[2147483647]]) (str "C") = some [63] := by decide
example : normalize (str "Hello, World 42!") = str "HELLOWORLD" := by decide
example : pad 2 (str "HELLO") = some (str "HELLOX") := by decide
example : sanitize_keyword (str "Monarchy jim") = str "MONARCHYI" := by decide
set_option maxRecDepth 100000 in
example : read_table (build_table (sanitize_keyword (str "MONARCHY"))) = (str "MONARCHYBDEFGIKLPQSTUVWXZ").map some := by decide
example : playfair_preprocess (str "BALLOON") = some (str "BALXLOON") := by decide
set_option maxRecDepth 100000 in
example : playfair_encrypt (table_chars (build_table (str "MONARCHY"))) (str "BALXLOON") = some (str "IBSUPMNA") := by decide
set_option maxRecDepth 100000 in
example : (main 2 identity_matrix (str "Hello!") (str "Monarchy")).map
    (fun t => (t.padded, t.hill, t.keyword, t.pf_input, t.playfair))
    = some (str "HELLOX", str "HELLOX", str "MONARCHY", str "HELXLOXX", str "CFSUPMZZ") := by
  decide

/-! ## Machine arithmetic inside its range -/

theorem wrap32_of_range {x : Int} (h1 : -2147483648 ≤ x) (h2 : x < 2147483648) :
    wrap32 x = x := by
  unfold wrap32; omega

theorem toChar_of_range {x : Int} (h1 : -128 ≤ x) (h2 : x < 128) : toChar x = x := by
  unfold toChar; omega

/-! ## hill_encrypt : the row sum without overflow -/

theorem hill_row_sum_succ (m : Nat) (row : Nat → Int) (temp : List Int) :
    hill_row_sum (m + 1) row temp
      = wrap32 (hill_row_sum m row temp + wrap32 (row m * temp.getD m 0)) := by
  simp [hill_row_sum, List.range_succ, List.foldl_append]

/-- When the entries of the row and the block values are non-negative and the exact
sum fits an `int`, no product and no partial sum overflows, and the loop computes the
exact sum. -/
theorem hill_row_sum_no_overflow (row : Nat → Int) (temp : List Int)
    (htemp : ∀ k, 0 ≤ temp.getD k 0) :
    ∀ m : Nat, (∀ k, k < m → 0 ≤ row k) →
      ∑ k ∈ Finset.range m, row k * temp.getD k 0 < 2147483648 →
      hill_row_sum m row temp = ∑ k ∈ Finset.range m, row k * temp.getD k 0
      ∧ 0 ≤ ∑ k ∈ Finset.range m, row k * temp.getD k 0 := by
  intro m
  induction m with
  | zero => intro _ _; simp [hill_row_sum]
  | succ m ih =>
    intro hrow hb
    rw [Finset.sum_range_succ] at hb
    have p0 : 0 ≤ row m * temp.getD m 0 := mul_nonneg (hrow m (Nat.lt_succ_self m)) (htemp m)
    have hsum0 : 0 ≤ ∑ k ∈ Finset.range m, row k * temp.getD k 0 :=
      Finset.sum_nonneg (fun k hk =>
        mul_nonneg (hrow k (Nat.lt_succ_of_lt (Finset.mem_range.mp hk))) (htemp k))
    obtain ⟨e, lo⟩ := ih (fun k hk => hrow k (Nat.lt_succ_of_lt hk)) (by omega)
    rw [hill_row_sum_succ, Finset.sum_range_succ, e]
    refine ⟨?_, by omega⟩
    rw [wrap32_of_range (x := row m * temp.getD m 0) (by omega) (by omega),
      wrap32_of_range (by omega) (by omega)]

theorem temp_getD (block : List Int) (h : ∀ c ∈ block, IsUpper c) (k : Nat) :
    0 ≤ (block.map (fun c => c - 65)).getD k 0 ∧ (block.map (fun c => c - 65)).getD k 0 ≤ 25 := by
  rw [List.getD_eq_getElem?_getD, List.getElem?_map]
  rcases hk : block[k]? with _ | c
  · simp
  · have hc := h c (List.getElem?_mem hk)
    unfold IsUpper at hc
    simp only [Option.map_some', Option.getD_some]
    omega

theorem temp_getD_eq (block : List Int) (k : Nat) (hk : k < block.length) :
    (block.map (fun c => c - 65)).getD k 0 = block.getD k 0 - 65 := by
  simp [List.getD_eq_getElem?_getD, List.getElem?_map, List.getElem?_eq_getElem hk]

/-- A block of letters under a key with non-negative entries, when every exact row sum
fits an `int`. -/
theorem hill_block_exact_of_fit (n : Nat) (matrix : Nat → Nat → Int)
    (hnn : ∀ j k, j < n → k < n → 0 ≤ matrix j k)
    (block : List Int) (hlen : block.length = n) (hup : ∀ c ∈ block, IsUpper c)
    (hfit : ∀ j, j < n →
      ∑ k ∈ Finset.range n, matrix j k * (block.getD k 0 - 65) < 2147483648) :
    hill_block n matrix block = (List.range n).map (hill_exact n matrix block) := by
  unfold hill_block
  apply List.map_congr_left
  intro j hj
  have hj : j < n := List.mem_range.mp hj
  have hs : ∑ k ∈ Finset.range n, matrix j k * (block.map (fun c => c - 65)).getD k 0
      = ∑ k ∈ Finset.range n, matrix j k * (block.getD k 0 - 65) := by
    apply Finset.sum_congr rfl
    intro k hk
    rw [temp_getD_eq block k (by rw [hlen]; exact Finset.mem_range.mp hk)]
  obtain ⟨e, lo⟩ := hill_row_sum_no_overflow (matrix j) (block.map (fun c => c - 65))
    (fun k => (temp_getD block hup k).1) n (fun k hk => hnn j k hj hk)
    (by rw [hs]; exact hfit j hj)
  simp only [e, hill_exact]
  rw [Int.tmod_eq_emod lo (by norm_num), hs]
  have := Int.emod_nonneg (∑ k ∈ Finset.range n, matrix j k * (block.getD k 0 - 65))
    (by norm_num : (26 : Int) ≠ 0)
  have := Int.emod_lt_of_pos (∑ k ∈ Finset.range n, matrix j k * (block.getD k 0 - 65))
    (by norm_num : (0 : Int) < 26)
  rw [wrap32_of_range (by omega) (by omega), toChar_of_range (by omega) (by omega)]
  omega

theorem hill_exact_isUpper (n : Nat) (matrix : Nat → Nat → Int) (block : List Int) (j : Nat) :
    IsUpper (hill_exact n matrix block j) := by
  unfold hill_exact IsUpper
  have := Int.emod_nonneg (∑ k ∈ Finset.range n, matrix j k * (block.getD k 0 - 65))
    (by norm_num : (26 : Int) ≠ 0)
  have := Int.emod_lt_of_pos (∑ k ∈ Finset.range n, matrix j k * (block.getD k 0 - 65))
    (by norm_num : (0 : Int) < 26)
  omega

/-! ## hill_encrypt : the loop over the blocks -/

theorem hill_block_length (n : Nat) (matrix : Nat → Nat → Int) (block : List Int) :
    (hill_block n matrix block).length = n := by
  simp [hill_block]

theorem hill_blocks_length (n : Nat) (matrix : Nat → Nat → Int) :
    ∀ (m : Nat) (text : List Int), (hill_blocks n matrix m text).length = m * n := by
  intro m
  induction m with
  | zero => intro text; simp [hill_blocks]
  | succ m ih =>
    intro text
    simp only [hill_blocks, List.length_append, hill_block_length, ih]
    ring

/-- With `n ≥ 1`, a text of `m` blocks and fuel for `m` turns, the loop returns. -/
theorem hill_loop_eq_blocks (n : Nat) (hn : 1 ≤ n) (matrix : Nat → Nat → Int) :
    ∀ (m fuel : Nat) (text : List Int), text.length = m * n → m ≤ fuel →
      hill_loop n matrix fuel text = some (hill_blocks n matrix m text) := by
  intro m
  induction m with
  | zero =>
    intro fuel text hlen _
    have ht : text = [] := List.length_eq_zero.mp (by simpa using hlen)
    subst ht
    cases fuel <;> simp [hill_loop, hill_blocks]
  | succ m ih =>
    intro fuel text hlen hfuel
    obtain ⟨fuel, rfl⟩ : ∃ f, fuel = f + 1 := ⟨fuel - 1, by omega⟩
    have hl : text.length = m * n + n := by rw [hlen]; ring
    have hne : text ≠ [] := by
      intro h; rw [h] at hl; simp at hl; omega
    have hdrop : (text.drop n).length = m * n := by rw [List.length_drop]; omega
    simp only [hill_loop, hne, if_false, show ¬ text.length < n by omega,
      ih fuel (text.drop n) hdrop (by omega), Option.map_some', hill_blocks]

theorem hill_encrypt_eq_blocks (n : Nat) (hn : 1 ≤ n) (matrix : Nat → Nat → Int)
    (text : List Int) (hlen : text.length % n = 0) :
    hill_encrypt n matrix text = some (hill_blocks n matrix (text.length / n) text) := by
  have hm : text.length = text.length / n * n :=
    (Nat.div_mul_cancel (Nat.dvd_of_mod_eq_zero hlen)).symm
  have hle : text.length / n ≤ text.length := Nat.div_le_self _ _
  exact hill_loop_eq_blocks n hn matrix (text.length / n) text.length text hm hle

theorem hill_blocks_getElem? (n : Nat) (matrix : Nat → Nat → Int) :
    ∀ (m : Nat) (text : List Int) (i j : Nat), i < m → j < n →
      (hill_blocks n matrix m text)[i * n + j]?
        = (hill_block n matrix ((text.drop (i * n)).take n))[j]? := by
  intro m
  induction m with
  | zero => intro text i j hi; omega
  | succ m ih =>
    intro text i j hi hj
    cases i with
    | zero =>
      simp only [hill_blocks, Nat.zero_mul, Nat.zero_add, List.drop_zero]
      rw [List.getElem?_append_left (by rw [hill_block_length]; exact hj)]
    | succ i =>
      simp only [hill_blocks]
      rw [List.getElem?_append_right (by rw [hill_block_length, Nat.succ_mul]; omega),
        hill_block_length, show (i + 1) * n + j - n = i * n + j by rw [Nat.succ_mul]; omega,
        ih (text.drop n) i j (by omega) hj, List.drop_drop,
        show n + i * n = (i + 1) * n by rw [Nat.succ_mul]; omega]

theorem lt_blocks_of_index_lt {n m i j : Nat} (h : i * n + j < m * n) : i < m := by
  by_contra hc
  have : m * n ≤ i * n := Nat.mul_le_mul_right n (Nat.le_of_not_lt hc)
  omega

theorem block_length {n m i : Nat} (text : List Int) (hlen : text.length = m * n) (hi : i < m) :
    ((text.drop (i * n)).take n).length = n := by
  have : (i + 1) * n ≤ m * n := Nat.mul_le_mul_right n hi
  rw [Nat.succ_mul] at this
  rw [List.length_take, List.length_drop]; omega

theorem block_getD {n : Nat} (text : List Int) (i k : Nat) (hk : k < n) :
    ((text.drop (i * n)).take n).getD k 0 = text.getD (i * n + k) 0 := by
  simp [List.getD_eq_getElem?_getD, List.getElem?_take, hk, List.getElem?_drop]

theorem block_isUpper {n : Nat} (text : List Int) (i : Nat) (hup : ∀ c ∈ text, IsUpper c) :
    ∀ c ∈ (text.drop (i * n)).take n, IsUpper c :=
  fun c hc => hup c (List.mem_of_mem_drop (List.mem_of_mem_take hc))

/-! ## C1 : hill_encrypt is the block-wise matrix product mod 26 -/

/-- C1 (as stated, refuted): with the 1×1 key matrix [[2147483647]], whose entry is
non-negative, and the text "C", the product 2147483647 * 2 does not fit an `int`; the
output character is 63, which is neither a letter nor 'A' + ((2147483647 * 2) mod 26). -/
theorem hill_encrypt_overflow_counterexample :
    (1 : Nat) ≥ 1 ∧ (∀ j k, j < 1 → k < 1 → 0 ≤ matrix_of [[2147483647]] j k)
    ∧ (∀ c ∈ str "C", IsUpper c) ∧ (str "C").length % 1 = 0
    ∧ hill_encrypt 1 (matrix_of [[2147483647]]) (str "C") = some [63]
    ∧ ¬ IsUpper 63
    ∧ (63 : Int) ≠ 65 + (∑ k ∈ Finset.range 1,
        matrix_of [[2147483647]] 0 k * ((str "C").getD (0 * 1 + k) 0 - 65)) % 26 := by
  refine ⟨le_refl 1, ?_, by decide, by decide, by decide, by decide, ?_⟩
  · intro j k hj hk
    obtain rfl : j = 0 := by omega
    obtain rfl : k = 0 := by omega
    decide
  · rw [Finset.sum_range_one]
    decide

/-- C1 (amended): for every n ≥ 1, every n×n key matrix with non-negative entries and
every text of letters A–Z whose length is a multiple of n, such that no row sum
Σ_{k<n} matrix[j][k] * (text[i*n+k] - 'A') exceeds 2^31 - 1 (the largest `int`),
`hill_encrypt` returns a text of the same length, in which the character at position
i*n+j (j < n) is 'A' + ((Σ_{k<n} matrix[j][k] * (text[i*n+k] - 'A')) mod 26), a letter
of A–Z, the products being taken on the original block. -/
theorem hill_encrypt_block_product (n : Nat) (hn : 1 ≤ n) (matrix : Nat → Nat → Int)
    (hnonneg : ∀ j k, j < n → k < n → 0 ≤ matrix j k)
    (text : List Int) (hup : ∀ c ∈ text, IsUpper c) (hlen : text.length % n = 0)
    (hfit : ∀ i j, j < n → i * n + j < text.length →
      ∑ k ∈ Finset.range n, matrix j k * (text.getD (i * n + k) 0 - 65) < 2147483648) :
    ∃ out, hill_encrypt n matrix text = some out ∧ out.length = text.length
      ∧ ∀ i j, j < n → i * n + j < text.length →
          out[i * n + j]? = some (65 + (∑ k ∈ Finset.range n,
            matrix j k * (text.getD (i * n + k) 0 - 65)) % 26)
          ∧ IsUpper (65 + (∑ k ∈ Finset.range n,
            matrix j k * (text.getD (i * n + k) 0 - 65)) % 26) := by
  have hm : text.length = text.length / n * n :=
    (Nat.div_mul_cancel (Nat.dvd_of_mod_eq_zero hlen)).symm
  refine ⟨_, hill_encrypt_eq_blocks n hn matrix text hlen, ?_, ?_⟩
  · rw [hill_blocks_length]; exact hm.symm
  · intro i j hj hij
    have hi : i < text.length / n := lt_blocks_of_index_lt (hm ▸ hij)
    have hblk : ∀ j', ∑ k ∈ Finset.range n,
          matrix j' k * (((text.drop (i * n)).take n).getD k 0 - 65)
        = ∑ k ∈ Finset.range n, matrix j' k * (text.getD (i * n + k) 0 - 65) := by
      intro j'
      apply Finset.sum_congr rfl
      intro k hk
      rw [block_getD text i k (Finset.mem_range.mp hk)]
    have hsum : hill_exact n matrix ((text.drop (i * n)).take n) j
        = 65 + (∑ k ∈ Finset.range n, matrix j k * (text.getD (i * n + k) 0 - 65)) % 26 := by
      unfold hill_exact
      rw [hblk j]
    have hfitblk : ∀ j', j' < n → ∑ k ∈ Finset.range n,
        matrix j' k * (((text.drop (i * n)).take n).getD k 0 - 65) < 2147483648 := by
      intro j' hj'
      rw [hblk j']
      have : (i + 1) * n ≤ text.length / n * n := Nat.mul_le_mul_right n hi
      rw [Nat.succ_mul] at this
      exact hfit i j' hj' (by omega)
    constructor
    · rw [hill_blocks_getElem? n matrix _ text i j hi hj,
        hill_block_exact_of_fit n matrix hnonneg _ (block_length text hm hi)
          (block_isUpper text i hup) hfitblk,
        List.getElem?_map, List.getElem?_range hj, Option.map_some', hsum]
    · rw [← hsum]; exact hill_exact_isUpper n matrix _ j

/-- C1 (amended), at the key [[3,3],[2,5]] and the text "HELP". -/
theorem hill_encrypt_block_product_witness :
    ∃ out, hill_encrypt 2 (matrix_of [[3, 3], [2, 5]]) (str "HELP") = some out
      ∧ out.length = (str "HELP").length
      ∧ ∀ i j, j < 2 → i * 2 + j < (str "HELP").length →
          out[i * 2 + j]? = some (65 + (∑ k ∈ Finset.range 2,
            matrix_of [[3, 3], [2, 5]] j k * ((str "HELP").getD (i * 2 + k) 0 - 65)) % 26)
          ∧ IsUpper (65 + (∑ k ∈ Finset.range 2,
            matrix_of [[3, 3], [2, 5]] j k * ((str "HELP").getD (i * 2 + k) 0 - 65)) % 26) :=
  hill_encrypt_block_product 2 (by decide) (matrix_of [[3, 3], [2, 5]])
    (by
      intro j k hj hk
      interval_cases j <;> interval_cases k <;> decide)
    (str "HELP") (by decide) (by decide)
    (by
      intro i j hj hij
      have hi : i < 2 := by
        have : (str "HELP").length = 4 := by decide
        omega
      interval_cases i <;> interval_cases j <;>
        simp [Finset.sum_range_succ, matrix_of, str])

/-! ## hill_encrypt : block functions that undo each other -/

theorem hill_blocks_of_block_id (n : Nat) (matrix : Nat → Nat → Int)
    (hblock : ∀ block : List Int, block.length = n → (∀ c ∈ block, IsUpper c) →
      hill_block n matrix block = block) :
    ∀ (m : Nat) (text : List Int), text.length = m * n → (∀ c ∈ text, IsUpper c) →
      hill_blocks n matrix m text = text := by
  intro m
  induction m with
  | zero =>
    intro text hlen _
    have ht : text = [] := List.length_eq_zero.mp (by simpa using hlen)
    simp [hill_blocks, ht]
  | succ m ih =>
    intro text hlen hup
    have hl : text.length = m * n + n := by rw [hlen]; ring
    simp only [hill_blocks]
    rw [hblock (text.take n) (by rw [List.length_take]; omega)
        (fun c hc => hup c (List.mem_of_mem_take hc)),
      ih (text.drop n) (by rw [List.length_drop]; omega)
        (fun c hc => hup c (List.mem_of_mem_drop hc)),
      List.take_append_drop]

/-- When the second key undoes the first on every block of the text, it undoes it on the
text. -/
theorem hill_blocks_round_trip (n : Nat) (K K' : Nat → Nat → Int) :
    ∀ (m : Nat) (text : List Int), text.length = m * n →
      (∀ i, i < m → hill_block n K' (hill_block n K ((text.drop (i * n)).take n))
        = (text.drop (i * n)).take n) →
      hill_blocks n K' m (hill_blocks n K m text) = text := by
  intro m
  induction m with
  | zero =>
    intro text hlen _
    have ht : text = [] := List.length_eq_zero.mp (by simpa using hlen)
    simp [hill_blocks, ht]
  | succ m ih =>
    intro text hlen hblock
    have hl : text.length = m * n + n := by rw [hlen]; ring
    have h0 := hblock 0 (Nat.succ_pos m)
    simp only [Nat.zero_mul, List.drop_zero] at h0
    have hrest : ∀ i, i < m →
        hill_block n K' (hill_block n K (((text.drop n).drop (i * n)).take n))
          = ((text.drop n).drop (i * n)).take n := by
      intro i hi
      have := hblock (i + 1) (by omega)
      rwa [List.drop_drop, show n + i * n = (i + 1) * n by rw [Nat.succ_mul]; omega]
    simp only [hill_blocks]
    rw [List.take_left' (hill_block_length n K _), List.drop_left' (hill_block_length n K _),
      h0, ih (text.drop n) (by rw [List.length_drop]; omega) hrest, List.take_append_drop]

theorem identity_row_sum (n : Nat) (f : Nat → Int) (j : Nat) (hj : j < n) :
    ∑ k ∈ Finset.range n, identity_matrix j k * f k = f j := by
  simp [identity_matrix, Finset.mem_range.mpr hj]

theorem hill_block_identity (n : Nat) (block : List Int) (hlen : block.length = n)
    (hup : ∀ c ∈ block, IsUpper c) : hill_block n identity_matrix block = block := by
  have hval : ∀ j, j < n → 65 ≤ block.getD j 0 ∧ block.getD j 0 ≤ 90 := by
    intro j hj
    have hjb : j < block.length := by rw [hlen]; exact hj
    have hc := hup block[j] (List.getElem_mem hjb)
    unfold IsUpper at hc
    simpa [List.getD_eq_getElem?_getD, List.getElem?_eq_getElem hjb] using hc
  have hnn : ∀ j k, j < n → k < n → 0 ≤ identity_matrix j k := by
    intro j k _ _; unfold identity_matrix; split <;> norm_num
  have hfit : ∀ j, j < n →
      ∑ k ∈ Finset.range n, identity_matrix j k * (block.getD k 0 - 65) < 2147483648 := by
    intro j hj
    rw [identity_row_sum n (fun k => block.getD k 0 - 65) j hj]
    have := hval j hj
    omega
  rw [hill_block_exact_of_fit n identity_matrix hnn block hlen hup hfit]
  apply List.ext_getElem?
  intro j
  by_cases hj : j < n
  · have hjb : j < block.length := by rw [hlen]; exact hj
    have hv := hval j hj
    have hg : block.getD j 0 = block[j] := by
      simp [List.getD_eq_getElem?_getD, List.getElem?_eq_getElem hjb]
    rw [List.getElem?_map, List.getElem?_range hj, List.getElem?_eq_getElem hjb]
    simp only [Option.map_some', Option.some.injEq]
    unfold hill_exact
    rw [identity_row_sum n (fun k => block.getD k 0 - 65) j hj, ← hg]
    omega
  · rw [List.getElem?_eq_none (by simp; omega), List.getElem?_eq_none (by omega)]

/-! ## Inverse matrices modulo 26 -/

theorem cast_emod26 (a : ℤ) : ((a % 26 : ℤ) : ZMod 26) = (a : ZMod 26) := by
  exact_mod_cast ZMod.intCast_mod a 26

theorem inverse_mod_apply (n : Nat) (K K' : Nat → Nat → Int) (x : Nat → Int)
    (hinv : ∀ i k, i < n → k < n →
      (∑ j ∈ Finset.range n, K' i j * K j k) % 26 = if i = k then 1 else 0)
    (i : Nat) (hi : i < n) :
    (∑ j ∈ Finset.range n, K' i j * ((∑ k ∈ Finset.range n, K j k * x k) % 26)) % 26
      = x i % 26 := by
  have h := (ZMod.intCast_eq_intCast_iff' (∑ j ∈ Finset.range n, K' i j * ((∑ k ∈ Finset.range n, K j k * x k) % 26)) (x i) 26).mp ?_
  · exact_mod_cast h
  · have hinv' : ∀ k, k ∈ Finset.range n →
        (∑ j ∈ Finset.range n, (K' i j : ZMod 26) * (K j k : ZMod 26)) = if i = k then 1 else 0 := by
      intro k hk
      have := congrArg (fun z : ℤ => (z : ZMod 26)) (hinv i k hi (Finset.mem_range.mp hk))
      simp only [cast_emod26] at this
      push_cast at this
      rw [this]
    push_cast
    simp only [cast_emod26]
    push_cast
    simp only [Finset.mul_sum, ← mul_assoc]
    rw [Finset.sum_comm]
    simp only [← Finset.sum_mul]
    rw [Finset.sum_congr rfl (fun k hk => by rw [hinv' k hk])]
    simp [Finset.mem_range.mpr hi]

/-- One block: the second key undoes the first when both have non-negative entries and
no row sum of either call overflows. -/
theorem hill_block_round_trip (n : Nat) (K K' : Nat → Nat → Int)
    (hK : ∀ j k, j < n → k < n → 0 ≤ K j k) (hK' : ∀ j k, j < n → k < n → 0 ≤ K' j k)
    (hinv : ∀ i k, i < n → k < n →
      (∑ j ∈ Finset.range n, K' i j * K j k) % 26 = if i = k then 1 else 0)
    (block : List Int) (hlen : block.length = n) (hup : ∀ c ∈ block, IsUpper c)
    (hfit1 : ∀ j, j < n →
      ∑ k ∈ Finset.range n, K j k * (block.getD k 0 - 65) < 2147483648)
    (hfit2 : ∀ j, j < n →
      ∑ k ∈ Finset.range n, K' j k * ((hill_block n K block).getD k 0 - 65) < 2147483648) :
    hill_block n K' (hill_block n K block) = block := by
  have hexact := hill_block_exact_of_fit n K hK block hlen hup hfit1
  rw [hexact] at hfit2 ⊢
  have hup' : ∀ c ∈ (List.range n).map (hill_exact n K block), IsUpper c := by
    intro c hc
    obtain ⟨j, -, rfl⟩ := List.mem_map.mp hc
    exact hill_exact_isUpper n K block j
  rw [hill_block_exact_of_fit n K' hK' _ (by simp) hup' hfit2]
  apply List.ext_getElem?
  intro i
  by_cases hi : i < n
  · have hib : i < block.length := by rw [hlen]; exact hi
    have hc := hup block[i] (List.getElem_mem hib)
    unfold IsUpper at hc
    rw [List.getElem?_map, List.getElem?_range hi, List.getElem?_eq_getElem hib]
    simp only [Option.map_some', Option.some.injEq]
    have hs : ∑ j ∈ Finset.range n,
          K' i j * (((List.range n).map (hill_exact n K block)).getD j 0 - 65)
        = ∑ j ∈ Finset.range n, K' i j
            * ((∑ k ∈ Finset.range n, K j k * (block.getD k 0 - 65)) % 26) := by
      apply Finset.sum_congr rfl
      intro j hj
      simp [List.getD_eq_getElem?_getD, List.getElem?_map,
        List.getElem?_range (Finset.mem_range.mp hj), hill_exact]
    have hx : block.getD i 0 = block[i] := by
      simp [List.getD_eq_getElem?_getD, List.getElem?_eq_getElem hib]
    have := inverse_mod_apply n K K' (fun k => block.getD k 0 - 65) hinv i hi
    simp only [hx] at this
    have houter : hill_exact n K' ((List.range n).map (hill_exact n K block)) i
        = 65 + (∑ j ∈ Finset.range n,
            K' i j * (((List.range n).map (hill_exact n K block)).getD j 0 - 65)) % 26 := rfl
    rw [houter, hs, this]
    omega
  · rw [List.getElem?_eq_none (by simp; omega), List.getElem?_eq_none (by omega)]

/-! ## C9 : the identity matrix leaves the text unchanged -/

/-- C9: for every n ≥ 1 and every text of letters A–Z whose length is a multiple of n,
`hill_encrypt` with the n×n identity matrix returns the text unchanged. -/
theorem hill_encrypt_identity (n : Nat) (hn : 1 ≤ n) (text : List Int)
    (hup : ∀ c ∈ text, IsUpper c) (hlen : text.length % n = 0) :
    hill_encrypt n identity_matrix text = some text := by
  have hm : text.length = text.length / n * n :=
    (Nat.div_mul_cancel (Nat.dvd_of_mod_eq_zero hlen)).symm
  rw [hill_encrypt_eq_blocks n hn identity_matrix text hlen,
    hill_blocks_of_block_id n identity_matrix (hill_block_identity n) _ text hm hup]

/-- C9 at the text "HELLOX" with the 2×2 identity matrix [[1,0],[0,1]]. -/
theorem hill_encrypt_identity_witness :
    hill_encrypt 2 identity_matrix (str "HELLOX") = some (str "HELLOX") :=
  hill_encrypt_identity 2 (by decide) (str "HELLOX") (by decide) (by decide)

/-! ## C10 : Hill round trip with an inverse key modulo 26 -/

/-- C10 (as stated, refuted): K = [[-1]] and K' = [[25]] satisfy K'·K = -25 ≡ 1 mod 26,
but encrypting "B" with K gives the character 64 (`-1 % 26` is -1 in C), and encrypting
that with K' gives the character 40, not "B". -/
theorem hill_round_trip_counterexample :
    (1 : Nat) ≥ 1
    ∧ (∀ i k, i < 1 → k < 1 →
        (∑ j ∈ Finset.range 1, matrix_of [[25]] i j * matrix_of [[-1]] j k) % 26
          = if i = k then 1 else 0)
    ∧ (∀ c ∈ str "B", IsUpper c) ∧ (str "B").length % 1 = 0
    ∧ hill_encrypt 1 (matrix_of [[-1]]) (str "B") = some [64]
    ∧ (hill_encrypt 1 (matrix_of [[-1]]) (str "B")).bind (hill_encrypt 1 (matrix_of [[25]]))
        = some [40]
    ∧ some [40] ≠ some (str "B") := by
  refine ⟨le_refl 1, ?_, by decide, by decide, by decide, by decide, by decide⟩
  intro i k hi hk
  obtain rfl : i = 0 := by omega
  obtain rfl : k = 0 := by omega
  rw [Finset.sum_range_one]
  decide

/-- The round trip also fails with non-negative keys when an `int` overflows:
K = [[2147483647]] and K' = [[17]] satisfy K'·K ≡ 1 mod 26, and "C" comes back as the
character 57. -/
theorem hill_round_trip_overflow_example :
    (∑ j ∈ Finset.range 1, matrix_of [[17]] 0 j * matrix_of [[2147483647]] j 0) % 26 = 1
    ∧ (hill_encrypt 1 (matrix_of [[2147483647]]) (str "C")).bind
        (hill_encrypt 1 (matrix_of [[17]])) = some [57]
    ∧ some [57] ≠ some (str "C") := by
  refine ⟨?_, by decide, by decide⟩
  rw [Finset.sum_range_one]
  decide

/-- C10 (amended): for every n ≥ 1, all n×n matrices K and K' with non-negative entries
such that K'·K ≡ I mod 26, and every text of letters A–Z whose length is a multiple of
n, such that no row sum exceeds 2^31 - 1 (the largest `int`) in either call (the sums
Σ_k K[j][k] * (text[i*n+k] - 'A') of the first call, and the sums
Σ_k K'[j][k] * (c[i*n+k] - 'A') of the second call on the Hill ciphertext c),
hill_encrypt(n, K', hill_encrypt(n, K, text)) equals text. -/
theorem hill_round_trip (n : Nat) (hn : 1 ≤ n) (K K' : Nat → Nat → Int)
    (hK : ∀ j k, j < n → k < n → 0 ≤ K j k)
    (hK' : ∀ j k, j < n → k < n → 0 ≤ K' j k)
    (hinv : ∀ i k, i < n → k < n →
      (∑ j ∈ Finset.range n, K' i j * K j k) % 26 = if i = k then 1 else 0)
    (text : List Int) (hup : ∀ c ∈ text, IsUpper c) (hlen : text.length % n = 0)
    (hfit1 : ∀ i j, j < n → i * n + j < text.length →
      ∑ k ∈ Finset.range n, K j k * (text.getD (i * n + k) 0 - 65) < 2147483648)
    (hfit2 : ∀ cipher, hill_encrypt n K text = some cipher →
      ∀ i j, j < n → i * n + j < cipher.length →
        ∑ k ∈ Finset.range n, K' j k * (cipher.getD (i * n + k) 0 - 65) < 2147483648) :
    (hill_encrypt n K text).bind (hill_encrypt n K') = some text := by
  have hm : text.length = text.length / n * n :=
    (Nat.div_mul_cancel (Nat.dvd_of_mod_eq_zero hlen)).symm
  have hcl : (hill_blocks n K (text.length / n) text).length = text.length := by
    rw [hill_blocks_length]; exact hm.symm
  have hlen' : (hill_blocks n K (text.length / n) text).length % n = 0 := by
    rw [hcl]; exact hlen
  have hfitc := hfit2 _ (hill_encrypt_eq_blocks n hn K text hlen)
  rw [hcl] at hfitc
  have hblock : ∀ i, i < text.length / n →
      hill_block n K' (hill_block n K ((text.drop (i * n)).take n))
        = (text.drop (i * n)).take n := by
    intro i hi
    have hin : ∀ j, j < n → i * n + j < text.length := by
      intro j hj
      have : (i + 1) * n ≤ text.length / n * n := Nat.mul_le_mul_right n hi
      rw [Nat.succ_mul] at this
      omega
    apply hill_block_round_trip n K K' hK hK' hinv _ (block_length text hm hi)
      (block_isUpper text i hup)
    · intro j hj
      have h := hfit1 i j hj (hin j hj)
      have e : ∑ k ∈ Finset.range n, K j k * (((text.drop (i * n)).take n).getD k 0 - 65)
          = ∑ k ∈ Finset.range n, K j k * (text.getD (i * n + k) 0 - 65) := by
        apply Finset.sum_congr rfl
        intro k hk
        rw [block_getD text i k (Finset.mem_range.mp hk)]
      rw [e]; exact h
    · intro j hj
      have h := hfitc i j hj (hin j hj)
      have e : ∑ k ∈ Finset.range n,
            K' j k * ((hill_block n K ((text.drop (i * n)).take n)).getD k 0 - 65)
          = ∑ k ∈ Finset.range n,
            K' j k * ((hill_blocks n K (text.length / n) text).getD (i * n + k) 0 - 65) := by
        apply Finset.sum_congr rfl
        intro k hk
        rw [List.getD_eq_getElem?_getD, List.getD_eq_getElem?_getD,
          hill_blocks_getElem? n K _ text i k hi (Finset.mem_range.mp hk)]
      rw [e]; exact h
  rw [hill_encrypt_eq_blocks n hn K text hlen, Option.some_bind,
    hill_encrypt_eq_blocks n hn K' _ hlen', hcl,
    hill_blocks_round_trip n K K' _ text hm hblock]

/-- C10 (amended) at K = [[3,3],[2,5]], K' = [[15,17],[20,9]] and the text "HELP". -/
theorem hill_round_trip_witness :
    (hill_encrypt 2 (matrix_of [[3, 3], [2, 5]]) (str "HELP")).bind
      (hill_encrypt 2 (matrix_of [[15, 17], [20, 9]])) = some (str "HELP") :=
  hill_round_trip 2 (by decide) (matrix_of [[3, 3], [2, 5]]) (matrix_of [[15, 17], [20, 9]])
    (by intro j k hj hk; interval_cases j <;> interval_cases k <;> decide)
    (by intro j k hj hk; interval_cases j <;> interval_cases k <;> decide)
    (by
      intro i k hi hk
      interval_cases i <;> interval_cases k <;> simp [Finset.sum_range_succ, matrix_of])
    (str "HELP") (by decide) (by decide)
    (by
      intro i j hj hij
      have hi : i < 2 := by
        have : (str "HELP").length = 4 := by decide
        omega
      interval_cases i <;> interval_cases j <;>
        simp [Finset.sum_range_succ, matrix_of, str])
    (by
      intro cipher hc i j hj hij
      have e : hill_encrypt 2 (matrix_of [[3, 3], [2, 5]]) (str "HELP") = some (str "HIAT") := by
        decide
      rw [e] at hc
      cases hc
      have hi : i < 2 := by
        have : (str "HIAT").length = 4 := by decide
        omega
      interval_cases i <;> interval_cases j <;>
        simp [Finset.sum_range_succ, matrix_of, str])

/-! ## C7 : the normalizer loop -/

theorem isalpha_toupper {c : Int} (h : isalpha c = true) : IsUpper (toupper c) := by
  unfold isalpha at h
  unfold toupper IsUpper
  simp only [Bool.or_eq_true, Bool.and_eq_true, decide_eq_true_eq] at h
  split <;> omega

theorem toChar_toupper {c : Int} (h : isalpha c = true) : toChar (toupper c) = toupper c := by
  have := isalpha_toupper h
  unfold IsUpper at this
  exact toChar_of_range (by omega) (by omega)

theorem normalize_foldl (raw : List Int) :
    ∀ acc : List Int,
      raw.foldl (fun hill_input ch =>
        if isalpha ch then hill_input ++ [toChar (toupper ch)] else hill_input) acc
      = acc ++ (raw.filter isalpha).map toupper := by
  induction raw with
  | nil => intro acc; simp
  | cons ch raw ih =>
    intro acc
    rw [List.foldl_cons, ih]
    by_cases h : isalpha ch = true
    · simp [h, toChar_toupper h]
    · simp [h]

/-- C7: for every input string, the output of the normalizer loop is the sequence of the
input's alphabetic characters, uppercased, in their original order; it contains only
uppercase letters A–Z, its length is the number of alphabetic input characters, and it
is empty for the empty input. -/
theorem normalize_spec (raw : List Int) :
    normalize raw = (raw.filter isalpha).map toupper
    ∧ (∀ c ∈ normalize raw, IsUpper c)
    ∧ (normalize raw).length = raw.countP isalpha
    ∧ normalize [] = [] := by
  have h : normalize raw = (raw.filter isalpha).map toupper := by
    unfold normalize; rw [normalize_foldl]; simp
  refine ⟨h, ?_, ?_, rfl⟩
  · intro c hc
    rw [h] at hc
    obtain ⟨x, hx, rfl⟩ := List.mem_map.mp hc
    exact isalpha_toupper (List.mem_filter.mp hx).2
  · rw [h, List.length_map, List.countP_eq_length_filter]

/-! ## C6 : the padding loop -/

theorem pad_loop_replicate (n : Nat) (hn : 0 < n) :
    ∀ (k : Nat) (buf : List Int) (fuel : Nat), (buf.length + k) % n = 0 →
      (∀ k', k' < k → (buf.length + k') % n ≠ 0) → k ≤ fuel →
      pad_loop n fuel buf = some (buf ++ List.replicate k 88) := by
  intro k
  induction k with
  | zero =>
    intro buf fuel h0 _ _
    have h0 : buf.length % n = 0 := by simpa using h0
    cases fuel <;> simp [pad_loop, h0, Nat.pos_iff_ne_zero.mp hn]
  | succ k ih =>
    intro buf fuel hk hmin hfuel
    obtain ⟨fuel, rfl⟩ : ∃ f, fuel = f + 1 := ⟨fuel - 1, by omega⟩
    have h0 : buf.length % n ≠ 0 := by simpa using hmin 0 (Nat.succ_pos k)
    have hstep := ih (buf ++ [88]) fuel
      (by rw [List.length_append, List.length_singleton, ← hk]; congr 1; omega)
      (by
        intro k' hk'
        have := hmin (k' + 1) (by omega)
        rw [List.length_append, List.length_singleton]
        rwa [show buf.length + 1 + k' = buf.length + (k' + 1) by omega])
      (by omega)
    simp only [pad_loop, Nat.pos_iff_ne_zero.mp hn, if_false, h0, ne_eq, not_false_eq_true,
      if_true, hstep, List.replicate_succ, List.append_assoc, List.singleton_append]

theorem pad_count (n len : Nat) (hn : 0 < n) :
    (len + (n - len % n) % n) % n = 0
    ∧ (∀ k', k' < (n - len % n) % n → (len + k') % n ≠ 0)
    ∧ (n - len % n) % n < n := by
  have hdiv := Nat.div_add_mod len n
  have hr := Nat.mod_lt len hn
  generalize len % n = r at hdiv hr
  generalize len / n = q at hdiv
  subst hdiv
  refine ⟨?_, ?_, Nat.mod_lt _ hn⟩
  · rcases Nat.eq_zero_or_pos r with h | h
    · subst h; simp
    · rw [Nat.mod_eq_of_lt (by omega : n - r < n),
        show n * q + r + (n - r) = n * (q + 1) by rw [Nat.mul_succ]; omega]
      exact Nat.mul_mod_right n (q + 1)
  · intro k' hk'
    rcases Nat.eq_zero_or_pos r with h | h
    · subst h; simp at hk'
    · rw [Nat.mod_eq_of_lt (by omega : n - r < n)] at hk'
      rw [show n * q + r + k' = (r + k') + n * q by omega, Nat.add_mul_mod_self_left,
        Nat.mod_eq_of_lt (by omega)]
      omega

/-- C6: for every buffer and every block size n > 0, the padding loop terminates (any
fuel of at least n turns gives the same result); the result is the original buffer
followed by (n - len mod n) mod n characters 'X', so the original buffer is a prefix of
it, the appended suffix consists only of 'X' and has fewer than n characters, and the
length of the result is a multiple of n. -/
theorem pad_spec (n : Nat) (hn : 0 < n) (buf : List Int) :
    (∀ fuel, n ≤ fuel →
      pad_loop n fuel buf = some (buf ++ List.replicate ((n - buf.length % n) % n) 88))
    ∧ pad n buf = some (buf ++ List.replicate ((n - buf.length % n) % n) 88)
    ∧ (buf ++ List.replicate ((n - buf.length % n) % n) 88).length % n = 0
    ∧ buf <+: buf ++ List.replicate ((n - buf.length % n) % n) 88
    ∧ (∀ c ∈ List.replicate ((n - buf.length % n) % n) 88, c = (88 : Int))
    ∧ (List.replicate ((n - buf.length % n) % n) (88 : Int)).length < n := by
  obtain ⟨h1, h2, h3⟩ := pad_count n buf.length hn
  have hloop : ∀ fuel, n ≤ fuel →
      pad_loop n fuel buf = some (buf ++ List.replicate ((n - buf.length % n) % n) 88) :=
    fun fuel hf => pad_loop_replicate n hn _ buf fuel h1 h2 (by omega)
  refine ⟨hloop, hloop n (le_refl n), ?_, List.prefix_append _ _, ?_, ?_⟩
  · rw [List.length_append, List.length_replicate]; exact h1
  · intro c hc; exact (List.mem_replicate.mp hc).2
  · rw [List.length_replicate]; exact h3

/-- C6 at the buffer "HELLO" and n = 2: the result is "HELLOX". -/
theorem pad_spec_witness :
    (∀ fuel, 2 ≤ fuel → pad_loop 2 fuel (str "HELLO") = some (str "HELLOX"))
    ∧ pad 2 (str "HELLO") = some (str "HELLOX")
    ∧ (str "HELLOX").length % 2 = 0
    ∧ str "HELLO" <+: str "HELLOX"
    ∧ (∀ c ∈ [(88 : Int)], c = (88 : Int))
    ∧ [(88 : Int)].length < 2 :=
  pad_spec 2 (by decide) (str "HELLO")

/-! ## C4 : playfair_preprocess follows the split rules -/

theorem playfair_preprocess_loop_eq (input : List Int) :
    ∀ (fuel i : Nat) (res : List Int), input.length - i ≤ fuel →
      playfair_preprocess_loop input fuel i res
        = some (res ++ digraph_split ((input.drop i).map foldJ)) := by
  have hf : ∀ c : Int, (if c = 74 then 73 else c) = foldJ c := fun _ => rfl
  intro fuel
  induction fuel with
  | zero =>
    intro i res h
    have hi : input.length ≤ i := by omega
    simp [playfair_preprocess_loop, Nat.not_lt.mpr hi, List.drop_eq_nil_of_le hi,
      digraph_split]
  | succ fuel ih =>
    intro i res h
    by_cases hi : i < input.length
    · have ha : input.getD i 0 = input[i] := by
        simp [List.getD_eq_getElem?_getD, List.getElem?_eq_getElem hi]
      by_cases hi1 : i + 1 < input.length
      · have hb : input.getD (i + 1) 0 = input[i + 1] := by
          simp [List.getD_eq_getElem?_getD, List.getElem?_eq_getElem hi1]
        have hd1 : input.drop (i + 1) = input[i + 1] :: input.drop (i + 2) :=
          List.drop_eq_getElem_cons hi1
        have hd : input.drop i = input[i] :: input[i + 1] :: input.drop (i + 2) := by
          rw [List.drop_eq_getElem_cons hi, hd1]
        simp only [playfair_preprocess_loop, hi, hi1, if_true, ha, hb, hf]
        by_cases hab : foldJ input[i] = foldJ input[i + 1]
        · rw [if_pos hab, ih (i + 1) _ (by omega), hd, hd1]
          simp only [List.map_cons, digraph_split, if_pos hab, List.append_assoc,
            List.singleton_append, List.cons_append, List.nil_append]
        · rw [if_neg hab, ih (i + 2) _ (by omega), hd]
          simp only [List.map_cons, digraph_split, if_neg hab, List.append_assoc,
            List.singleton_append, List.cons_append, List.nil_append]
      · have hd : input.drop i = [input[i]] := by
          rw [List.drop_eq_getElem_cons hi, List.drop_eq_nil_of_le (by omega)]
        simp only [playfair_preprocess_loop, hi, hi1, if_true, if_false, ha, hf]
        rw [ih (i + 1) _ (by omega), hd, List.drop_eq_nil_of_le (by omega)]
        simp only [List.map_cons, List.map_nil, digraph_split, List.append_assoc,
          List.singleton_append, List.append_nil, List.cons_append, List.nil_append]
    · have hi : input.length ≤ i := by omega
      simp [playfair_preprocess_loop, Nat.not_lt.mpr hi, List.drop_eq_nil_of_le hi,
        digraph_split]

/-- C4: for every buffer, `playfair_preprocess` returns the digraph split, by the split
rules, of the buffer with J read as I; the split of "BALLOON" is "BALXLOON"
(BA, LX, LO, ON). -/
theorem playfair_preprocess_split :
    (∀ input : List Int,
      playfair_preprocess input = some (digraph_split (input.map foldJ)))
    ∧ playfair_preprocess (str "BALLOON") = some (str "BALXLOON") := by
  constructor
  · intro input
    have := playfair_preprocess_loop_eq input input.length 0 [] (by omega)
    simpa [playfair_preprocess] using this
  · decide

/-! ## C8 : sanitize_keyword -/

theorem isalpha_toupper_eq (c : Int) : isalpha (toupper c) = isalpha c := by
  unfold isalpha toupper
  by_cases h : 97 ≤ c ∧ c ≤ 122
  · have h1 : 65 ≤ c - 32 := by omega
    have h2 : c - 32 ≤ 90 := by omega
    simp [h, h1, h2]
  · simp [h]

theorem toChar_toupper_of_char {c : Int} (h : IsChar c) : toChar (toupper c) = toupper c := by
  unfold IsChar at h
  unfold toupper
  split <;> exact toChar_of_range (by omega) (by omega)

theorem mem_letters26 (c : Int) : c ∈ letters26 ↔ IsUpper c := by
  unfold letters26 IsUpper
  simp only [List.mem_map, List.mem_range]
  constructor
  · rintro ⟨i, hi, rfl⟩
    omega
  · intro h
    refine ⟨(c - 65).toNat, ?_, ?_⟩
    · have : ((c - 65).toNat : Int) = c - 65 := Int.toNat_of_nonneg (by omega)
      omega
    · rw [Int.toNat_of_nonneg (by omega)]; omega

theorem mem_letters25 (c : Int) : c ∈ letters25 ↔ IsUpper c ∧ c ≠ 74 := by
  unfold letters25
  simp [List.mem_filter, mem_letters26]

theorem letters26_nodup : letters26.Nodup := by
  decide

theorem letters25_nodup : letters25.Nodup := letters26_nodup.filter _

theorem letters25_length : letters25.length = 25 := by decide

theorem mem_keep_first (l : List Int) : ∀ c, c ∈ keep_first l → c ∈ l := by
  induction l with
  | nil => intro c h; simp [keep_first] at h
  | cons x xs ih =>
    intro c h
    simp only [keep_first, List.mem_cons, List.mem_filter] at h ⊢
    rcases h with h | h
    · exact Or.inl h
    · exact Or.inr (ih c h.1)

theorem keep_first_nodup (l : List Int) : (keep_first l).Nodup := by
  induction l with
  | nil => simp [keep_first]
  | cons x xs ih =>
    simp only [keep_first, List.nodup_cons, List.mem_filter]
    exact ⟨fun h => by simpa using h.2, ih.filter _⟩

theorem mem_sanitize_spec (key : List Int) :
    ∀ c, c ∈ sanitize_spec key → IsUpper c ∧ c ≠ 74 := by
  intro c hc
  have h := mem_keep_first _ c hc
  simp only [List.mem_map, List.mem_filter] at h
  obtain ⟨y, ⟨x, ⟨-, hx⟩, rfl⟩, rfl⟩ := h
  have := isalpha_toupper hx
  unfold IsUpper at this ⊢
  unfold foldJ
  split <;> omega

theorem sanitize_spec_nodup (key : List Int) : (sanitize_spec key).Nodup :=
  keep_first_nodup _

theorem sanitize_spec_length (key : List Int) : (sanitize_spec key).length ≤ 25 := by
  have hsub : sanitize_spec key ⊆ letters25 :=
    fun c hc => (mem_letters25 c).mpr (mem_sanitize_spec key c hc)
  have := ((sanitize_spec_nodup key).subperm hsub).length_le
  rwa [letters25_length] at this

/-- The loop of `sanitize_keyword` from a state in which `used` marks exactly the letters
written so far. -/
theorem sanitize_foldl (key : List Int) :
    ∀ st : (Int → Bool) × List Int, (∀ c ∈ key, IsChar c) →
      (∀ c, st.1 (c - 65) = true ↔ c ∈ st.2) →
      (key.foldl sanitize_step st).2
        = st.2 ++ (keep_first (((key.filter isalpha).map toupper).map foldJ)).filter
            (fun c => decide (c ∉ st.2)) := by
  induction key with
  | nil => intro st _ _; simp [keep_first]
  | cons ch key ih =>
    intro st hchar hused
    have hch : IsChar ch := hchar ch (List.mem_cons_self _ _)
    have hkey : ∀ c ∈ key, IsChar c := fun c hc => hchar c (List.mem_cons_of_mem _ hc)
    rw [List.foldl_cons]
    by_cases ha : isalpha ch = true
    · have ha' : isalpha (toupper ch) = true := by rw [isalpha_toupper_eq]; exact ha
      have hf : (if toupper ch = 74 then 73 else toupper ch) = foldJ (toupper ch) := rfl
      by_cases hu : st.1 (foldJ (toupper ch) - 65) = true
      · have hstep : sanitize_step st ch = st := by
          simp only [sanitize_step, toChar_toupper_of_char hch, ha', if_true, hf, hu,
            Bool.not_true, Bool.false_eq_true, if_false]
        have hmem : foldJ (toupper ch) ∈ st.2 := (hused _).mp hu
        rw [hstep, ih st hkey hused]
        simp only [List.filter_cons, ha, if_true, List.map_cons, keep_first, hmem,
          not_true_eq_false, decide_False, Bool.false_eq_true, if_false, List.filter_filter]
        congr 1
        apply List.filter_congr
        intro y _
        by_cases hy : y ∈ st.2
        · simp [hy]
        · have : y ≠ foldJ (toupper ch) := fun h => hy (h ▸ hmem)
          simp [hy, this]
      · have hstep : sanitize_step st ch
            = (fun i => if i = foldJ (toupper ch) - 65 then true else st.1 i,
                st.2 ++ [foldJ (toupper ch)]) := by
          simp only [sanitize_step, toChar_toupper_of_char hch, ha', if_true, hf, hu,
            Bool.not_false, if_true]
        have hmem : foldJ (toupper ch) ∉ st.2 := fun h => hu ((hused _).mpr h)
        have hused' : ∀ c, (fun i => if i = foldJ (toupper ch) - 65 then true else st.1 i)
            (c - 65) = true ↔ c ∈ st.2 ++ [foldJ (toupper ch)] := by
          intro c
          simp only [List.mem_append, List.mem_singleton]
          by_cases hc : c = foldJ (toupper ch)
          · simp [hc]
          · have : ¬ c - 65 = foldJ (toupper ch) - 65 := by omega
            simp [hc, this, hused c]
        rw [hstep, ih _ hkey hused']
        simp only [List.filter_cons, ha, if_true, List.map_cons, keep_first, hmem,
          not_false_eq_true, decide_True, List.filter_filter, List.append_assoc,
          List.singleton_append]
        congr 2
        apply List.filter_congr
        intro y _
        simp only [List.mem_append, List.mem_singleton, not_or, ne_eq, Bool.decide_and,
          decide_not]
    · have hna : ¬ isalpha (toupper ch) = true := by rw [isalpha_toupper_eq]; exact ha
      have hstep : sanitize_step st ch = st := by
        simp [sanitize_step, toChar_toupper_of_char hch, hna]
      rw [hstep, ih st hkey hused]
      simp [List.filter_cons, ha]

theorem sanitize_keyword_eq_spec (key : List Int) (hchar : ∀ c ∈ key, IsChar c) :
    sanitize_keyword key = sanitize_spec key := by
  unfold sanitize_keyword sanitize_spec
  rw [sanitize_foldl key _ hchar (by simp)]
  simp

/-- C8: for every keyword string, the result of `sanitize_keyword` is the input's
alphabetic characters uppercased, with J replaced by I, keeping only the first occurrence
of each letter in original order; it contains only letters of A–Z without J, has no
repeated letter and has length at most 25. -/
theorem sanitize_keyword_spec (key : List Int) (hchar : ∀ c ∈ key, IsChar c) :
    sanitize_keyword key = keep_first (((key.filter isalpha).map toupper).map foldJ)
    ∧ (∀ c ∈ sanitize_keyword key, IsUpper c ∧ c ≠ 74)
    ∧ (sanitize_keyword key).Nodup
    ∧ (sanitize_keyword key).length ≤ 25 := by
  rw [sanitize_keyword_eq_spec key hchar]
  exact ⟨rfl, mem_sanitize_spec key, sanitize_spec_nodup key, sanitize_spec_length key⟩

/-- C8 at the keyword "Monarchy jim!": the sanitized keyword is "MONARCHYI". -/
theorem sanitize_keyword_spec_witness :
    sanitize_keyword (str "Monarchy jim!")
      = keep_first ((((str "Monarchy jim!").filter isalpha).map toupper).map foldJ)
    ∧ (∀ c ∈ sanitize_keyword (str "Monarchy jim!"), IsUpper c ∧ c ≠ 74)
    ∧ (sanitize_keyword (str "Monarchy jim!")).Nodup
    ∧ (sanitize_keyword (str "Monarchy jim!")).length ≤ 25 :=
  sanitize_keyword_spec (str "Monarchy jim!") (by decide)

/-! ## C5 : playfair_encrypt applies the substitution rule to each digraph -/

theorem playfair_find_eq_foldl (table : Nat → Nat → Int) (x y : Int) :
    playfair_find table x y = grid.foldl (find_step table x y) (none, none) := rfl

theorem mem_grid (r c : Nat) (hr : r < 5) (hc : c < 5) : (r, c) ∈ grid := by
  unfold grid
  simp only [List.mem_flatMap, List.mem_map, List.mem_range]
  exact ⟨r, hr, c, hc, rfl⟩

theorem grid_bound (p : Nat × Nat) (hp : p ∈ grid) : p.1 < 5 ∧ p.2 < 5 := by
  unfold grid at hp
  simp only [List.mem_flatMap, List.mem_map, List.mem_range] at hp
  obtain ⟨r, hr, c, hc, rfl⟩ := hp
  exact ⟨hr, hc⟩

theorem find_foldl_fst (table : Nat → Nat → Int) (x y : Int) (p0 : Nat × Nat) :
    ∀ (ps : List (Nat × Nat)) (st : Option (Nat × Nat) × Option (Nat × Nat)),
      (∀ p ∈ ps, table p.1 p.2 = x → p = p0) →
      (ps.foldl (find_step table x y) st).1
        = if ∃ p ∈ ps, table p.1 p.2 = x then some p0 else st.1 := by
  intro ps
  induction ps with
  | nil => intro st _; simp
  | cons p ps ih =>
    intro st huniq
    rw [List.foldl_cons, ih _ (fun q hq => huniq q (List.mem_cons_of_mem _ hq))]
    by_cases hp : table p.1 p.2 = x
    · have hp0 : p = p0 := huniq p (List.mem_cons_self _ _) hp
      have h1 : (find_step table x y st p).1 = some p0 := by
        unfold find_step; rw [← hp0]; simp only [hp, if_true]; split <;> rfl
      have h2 : ∃ q ∈ p :: ps, table q.1 q.2 = x := ⟨p, List.mem_cons_self _ _, hp⟩
      rw [h1, if_pos h2]
      split <;> rfl
    · have h1 : (find_step table x y st p).1 = st.1 := by
        unfold find_step; simp only [hp, if_false]; split <;> rfl
      rw [h1]
      have hiff : (∃ q ∈ p :: ps, table q.1 q.2 = x) ↔ ∃ q ∈ ps, table q.1 q.2 = x := by
        simp [hp]
      simp only [hiff]

theorem find_foldl_snd (table : Nat → Nat → Int) (x y : Int) (p0 : Nat × Nat) :
    ∀ (ps : List (Nat × Nat)) (st : Option (Nat × Nat) × Option (Nat × Nat)),
      (∀ p ∈ ps, table p.1 p.2 = y → p = p0) →
      (ps.foldl (find_step table x y) st).2
        = if ∃ p ∈ ps, table p.1 p.2 = y then some p0 else st.2 := by
  intro ps
  induction ps with
  | nil => intro st _; simp
  | cons p ps ih =>
    intro st huniq
    rw [List.foldl_cons, ih _ (fun q hq => huniq q (List.mem_cons_of_mem _ hq))]
    by_cases hp : table p.1 p.2 = y
    · have hp0 : p = p0 := huniq p (List.mem_cons_self _ _) hp
      have h1 : (find_step table x y st p).2 = some p0 := by
        unfold find_step; rw [← hp0]; simp only [hp, if_true]
      have h2 : ∃ q ∈ p :: ps, table q.1 q.2 = y := ⟨p, List.mem_cons_self _ _, hp⟩
      rw [h1, if_pos h2]
      split <;> rfl
    · have h1 : (find_step table x y st p).2 = st.2 := by
        unfold find_step; simp only [hp, if_false]; split <;> rfl
      rw [h1]
      have hiff : (∃ q ∈ p :: ps, table q.1 q.2 = y) ↔ ∃ q ∈ ps, table q.1 q.2 = y := by
        simp [hp]
      simp only [hiff]

/-- The search loops assign the positions of two characters that each occur in exactly
one cell of the grid. -/
theorem playfair_find_unique (table : Nat → Nat → Int) (a b : Int) (r1 c1 r2 c2 : Nat)
    (h1 : r1 < 5 ∧ c1 < 5 ∧ table r1 c1 = a) (h2 : r2 < 5 ∧ c2 < 5 ∧ table r2 c2 = b)
    (hu1 : ∀ p : Nat × Nat, p.1 < 5 ∧ p.2 < 5 ∧ table p.1 p.2 = a → p = (r1, c1))
    (hu2 : ∀ p : Nat × Nat, p.1 < 5 ∧ p.2 < 5 ∧ table p.1 p.2 = b → p = (r2, c2)) :
    playfair_find table a b = (some (r1, c1), some (r2, c2)) := by
  rw [playfair_find_eq_foldl]
  apply Prod.ext
  · rw [find_foldl_fst table a b (r1, c1) grid _
      (fun p hp h => hu1 p ⟨(grid_bound p hp).1, (grid_bound p hp).2, h⟩)]
    exact if_pos ⟨(r1, c1), mem_grid r1 c1 h1.1 h1.2.1, h1.2.2⟩
  · rw [find_foldl_snd table a b (r2, c2) grid _
      (fun p hp h => hu2 p ⟨(grid_bound p hp).1, (grid_bound p hp).2, h⟩)]
    exact if_pos ⟨(r2, c2), mem_grid r2 c2 h2.1 h2.2.1, h2.2.2⟩

theorem playfair_pair_rule (table : Nat → Nat → Int) (a b : Int) (r1 c1 r2 c2 : Nat)
    (h1 : r1 < 5 ∧ c1 < 5 ∧ table r1 c1 = a) (h2 : r2 < 5 ∧ c2 < 5 ∧ table r2 c2 = b)
    (hu1 : ∀ p : Nat × Nat, p.1 < 5 ∧ p.2 < 5 ∧ table p.1 p.2 = a → p = (r1, c1))
    (hu2 : ∀ p : Nat × Nat, p.1 < 5 ∧ p.2 < 5 ∧ table p.1 p.2 = b → p = (r2, c2)) :
    playfair_pair table a b
      = some (if r1 = r2 then (table r1 ((c1 + 1) % 5), table r2 ((c2 + 1) % 5))
          else if c1 = c2 then (table ((r1 + 1) % 5) c1, table ((r2 + 1) % 5) c2)
          else (table r1 c2, table r2 c1)) := by
  unfold playfair_pair
  rw [playfair_find_unique table a b r1 c1 r2 c2 h1 h2 hu1 hu2]
  simp only []
  split_ifs <;> rfl

/-- On a text of `m` digraphs whose characters each occur in the grid, the loop of
`playfair_encrypt` returns, and the digraph at 2k, 2k+1 of the output is the value of the
loop body on the digraph at 2k, 2k+1 of the input. -/
theorem playfair_encrypt_pairs (table : Nat → Nat → Int)
    (hpair : ∀ a b, (IsUpper a ∧ a ≠ 74) → (IsUpper b ∧ b ≠ 74) →
      ∃ x y, playfair_pair table a b = some (x, y)) :
    ∀ (m : Nat) (text : List Int), text.length = 2 * m →
      (∀ x ∈ text, IsUpper x ∧ x ≠ 74) →
      ∃ out, playfair_encrypt table text = some out ∧ out.length = text.length
        ∧ ∀ k a b, text[2 * k]? = some a → text[2 * k + 1]? = some b →
            ∃ x y, playfair_pair table a b = some (x, y)
              ∧ out[2 * k]? = some x ∧ out[2 * k + 1]? = some y := by
  intro m
  induction m with
  | zero =>
    intro text hlen _
    have ht : text = [] := List.length_eq_zero.mp (by simpa using hlen)
    subst ht
    exact ⟨[], rfl, rfl, fun k a b h => by simp at h⟩
  | succ m ih =>
    intro text hlen htext
    match text, hlen, htext with
    | [], hlen, _ => simp at hlen
    | [_], hlen, _ => simp at hlen; omega
    | a :: b :: rest, hlen, htext =>
      have hrest : rest.length = 2 * m := by simp at hlen; omega
      obtain ⟨out, hout, hol, hk⟩ := ih rest hrest
        (fun x hx => htext x (List.mem_cons_of_mem _ (List.mem_cons_of_mem _ hx)))
      obtain ⟨x, y, hxy⟩ := hpair a b (htext a (List.mem_cons_self _ _))
        (htext b (List.mem_cons_of_mem _ (List.mem_cons_self _ _)))
      refine ⟨x :: y :: out, ?_, by simp [hol], ?_⟩
      · simp only [playfair_encrypt, hxy, hout]
      · intro k a' b' ha' hb'
        cases k with
        | zero =>
          simp only [Nat.mul_zero, List.getElem?_cons_zero, Option.some.injEq] at ha'
          simp only [Nat.mul_zero, Nat.zero_add, List.getElem?_cons_succ,
            List.getElem?_cons_zero, Option.some.injEq] at hb'
          subst ha' hb'
          exact ⟨x, y, hxy, by simp, by simp⟩
        | succ k =>
          have e1 : 2 * (k + 1) = (2 * k + 1) + 1 := by ring
          have e2 : 2 * (k + 1) + 1 = ((2 * k + 1) + 1) + 1 := by ring
          rw [e1, List.getElem?_cons_succ, List.getElem?_cons_succ] at ha'
          rw [e2, List.getElem?_cons_succ, List.getElem?_cons_succ] at hb'
          obtain ⟨x', y', h', hx', hy'⟩ := hk k a' b' ha' hb'
          refine ⟨x', y', h', ?_, ?_⟩
          · rw [e1, List.getElem?_cons_succ, List.getElem?_cons_succ]; exact hx'
          · rw [e2, List.getElem?_cons_succ, List.getElem?_cons_succ]; exact hy'

/-- C5: for every table containing each of the 25 letters (A–Z without J) in exactly one
cell of the grid and every even-length text over those letters, `playfair_encrypt`
returns a text of the same length in which, for each digraph (a,b) at positions 2k, 2k+1
with a at table position (r1,c1) and b at (r2,c2): if r1 = r2 the outputs are
table[r1][(c1+1) mod 5] and table[r2][(c2+1) mod 5]; otherwise if c1 = c2 they are
table[(r1+1) mod 5][c1] and table[(r2+1) mod 5][c2]; otherwise they are table[r1][c2]
and table[r2][c1]. -/
theorem playfair_encrypt_rule (table : Nat → Nat → Int)
    (htable : ∀ x, IsUpper x → x ≠ 74 →
      ∃! p : Nat × Nat, p.1 < 5 ∧ p.2 < 5 ∧ table p.1 p.2 = x)
    (text : List Int) (htext : ∀ x ∈ text, IsUpper x ∧ x ≠ 74)
    (heven : text.length % 2 = 0) :
    ∃ out, playfair_encrypt table text = some out ∧ out.length = text.length
      ∧ ∀ k a b r1 c1 r2 c2, text[2 * k]? = some a → text[2 * k + 1]? = some b →
          r1 < 5 → c1 < 5 → table r1 c1 = a → r2 < 5 → c2 < 5 → table r2 c2 = b →
          (r1 = r2 → out[2 * k]? = some (table r1 ((c1 + 1) % 5))
              ∧ out[2 * k + 1]? = some (table r2 ((c2 + 1) % 5)))
          ∧ (r1 ≠ r2 → c1 = c2 → out[2 * k]? = some (table ((r1 + 1) % 5) c1)
              ∧ out[2 * k + 1]? = some (table ((r2 + 1) % 5) c2))
          ∧ (r1 ≠ r2 → c1 ≠ c2 → out[2 * k]? = some (table r1 c2)
              ∧ out[2 * k + 1]? = some (table r2 c1)) := by
  have huniq : ∀ (x : Int) (r c : Nat), IsUpper x → x ≠ 74 → r < 5 → c < 5 → table r c = x →
      ∀ p : Nat × Nat, p.1 < 5 ∧ p.2 < 5 ∧ table p.1 p.2 = x → p = (r, c) := by
    intro x r c hx hj hr hc hrc p hp
    obtain ⟨q, -, hq⟩ := htable x hx hj
    rw [hq p hp, hq (r, c) ⟨hr, hc, hrc⟩]
  have hpair : ∀ a b, (IsUpper a ∧ a ≠ 74) → (IsUpper b ∧ b ≠ 74) →
      ∃ x y, playfair_pair table a b = some (x, y) := by
    intro a b ha hb
    obtain ⟨⟨r1, c1⟩, h1, -⟩ := htable a ha.1 ha.2
    obtain ⟨⟨r2, c2⟩, h2, -⟩ := htable b hb.1 hb.2
    exact ⟨_, _, playfair_pair_rule table a b r1 c1 r2 c2 h1 h2
      (huniq a r1 c1 ha.1 ha.2 h1.1 h1.2.1 h1.2.2)
      (huniq b r2 c2 hb.1 hb.2 h2.1 h2.2.1 h2.2.2)⟩
  have hm : text.length = 2 * (text.length / 2) := by omega
  obtain ⟨out, hout, hlen, hk⟩ := playfair_encrypt_pairs table hpair _ text hm htext
  refine ⟨out, hout, hlen, ?_⟩
  intro k a b r1 c1 r2 c2 ha hb hr1 hc1 h1 hr2 hc2 h2
  have hma : IsUpper a ∧ a ≠ 74 := htext a (List.getElem?_mem ha)
  have hmb : IsUpper b ∧ b ≠ 74 := htext b (List.getElem?_mem hb)
  obtain ⟨x, y, hxy, hx, hy⟩ := hk k a b ha hb
  rw [playfair_pair_rule table a b r1 c1 r2 c2 ⟨hr1, hc1, h1⟩ ⟨hr2, hc2, h2⟩
    (huniq a r1 c1 hma.1 hma.2 hr1 hc1 h1) (huniq b r2 c2 hmb.1 hmb.2 hr2 hc2 h2)] at hxy
  refine ⟨fun h => ?_, fun h h' => ?_, fun h h' => ?_⟩
  · rw [if_pos h] at hxy
    cases hxy
    exact ⟨hx, hy⟩
  · rw [if_neg h, if_pos h'] at hxy
    cases hxy
    exact ⟨hx, hy⟩
  · rw [if_neg h, if_neg h'] at hxy
    cases hxy
    exact ⟨hx, hy⟩

/-! ## build_table : the cells written by the two loops -/

theorem table_put_used (st : TableState) (idx ch : Int) (h : st.used idx = true) :
    table_put st idx ch = st := by
  simp [table_put, h]

theorem getElem?_concat_ne (w : List Int) (ch : Int) (k : Nat) (hk : k ≠ w.length) :
    (w ++ [ch])[k]? = w[k]? := by
  rcases Nat.lt_or_gt_of_ne hk with h | h
  · exact List.getElem?_append_left h
  · rw [List.getElem?_eq_none (by simp; omega), List.getElem?_eq_none (by omega)]

theorem table_put_new (st : TableState) (w : List Int) (idx ch : Int)
    (hinv : TableInv st w) (hused : st.used idx = false) (hch : ch = idx + 65) :
    TableInv (table_put st idx ch) (w ++ [ch]) := by
  obtain ⟨hc, hpos, htab, hu⟩ := hinv
  have htable : ∀ r c, (if r = st.r ∧ c = st.c then some ch else st.table r c)
      = if c < 5 then (w ++ [ch])[5 * r + c]? else none := by
    intro r c
    by_cases hcell : r = st.r ∧ c = st.c
    · obtain ⟨rfl, rfl⟩ := hcell
      simp [hc, hpos]
    · rw [if_neg hcell, htab r c]
      by_cases hc5 : c < 5
      · rw [if_pos hc5, if_pos hc5, getElem?_concat_ne w ch _ (by omega)]
      · rw [if_neg hc5, if_neg hc5]
  have husedn : ∀ i : Int, (if i = idx then true else st.used i) = true
      ↔ i = 9 ∨ i + 65 ∈ w ++ [ch] := by
    intro i
    by_cases hi : i = idx
    · simp [hi, hch]
    · have : ¬ i + 65 = ch := by omega
      simp [hi, hu i, this]
  unfold table_put
  simp only [hused, Bool.not_false, if_true]
  by_cases h5 : st.c + 1 = 5
  · simp only [h5, if_true]
    exact ⟨by dsimp only; omega, by dsimp only; simp; omega, htable, husedn⟩
  · simp only [h5, if_false]
    exact ⟨by dsimp only; omega, by dsimp only; simp; omega, htable, husedn⟩

theorem build_loop1 (key : List Int) :
    ∀ (st : TableState) (w : List Int), TableInv st w → key.Nodup →
      (∀ c ∈ key, c ≠ 74 ∧ c ∉ w) →
      TableInv (key.foldl (fun st ch => table_put st (ch - 65) ch) st) (w ++ key) := by
  induction key with
  | nil => intro st w h _ _; simpa using h
  | cons ch key ih =>
    intro st w hinv hnd hkey
    obtain ⟨hj, hw⟩ := hkey ch (List.mem_cons_self _ _)
    have hused : st.used (ch - 65) = false := by
      have := hinv.2.2.2 (ch - 65)
      rw [Bool.eq_false_iff]
      intro h
      rcases this.mp h with h9 | hm
      · omega
      · exact hw (by simpa using hm)
    have hnext := table_put_new st w (ch - 65) ch hinv hused (by omega)
    rw [List.foldl_cons]
    have := ih _ _ hnext (List.nodup_cons.mp hnd).2 (by
      intro c hc
      refine ⟨(hkey c (List.mem_cons_of_mem _ hc)).1, ?_⟩
      simp only [List.mem_append, List.mem_singleton, not_or]
      refine ⟨(hkey c (List.mem_cons_of_mem _ hc)).2, ?_⟩
      rintro rfl
      exact (List.nodup_cons.mp hnd).1 hc)
    simpa using this

theorem build_loop2 (l : List Nat) :
    ∀ (st : TableState) (w : List Int), TableInv st w → l.Nodup → (∀ i ∈ l, i < 26) →
      TableInv
        (l.foldl (fun st (i : Nat) => table_put st (i : Int) (toChar ((i : Int) + 65))) st)
        (w ++ (l.map (fun (i : Nat) => (i : Int) + 65)).filter
          (fun c => decide (c ≠ 74) && decide (c ∉ w))) := by
  induction l with
  | nil => intro st w h _ _; simpa using h
  | cons i l ih =>
    intro st w hinv hnd hl
    have hi : i < 26 := hl i (List.mem_cons_self _ _)
    have hchar : toChar ((i : Int) + 65) = (i : Int) + 65 :=
      toChar_of_range (by omega) (by omega)
    rw [List.foldl_cons, hchar, List.map_cons, List.filter_cons]
    have hu := hinv.2.2.2 (i : Int)
    by_cases hused : st.used (i : Int) = true
    · have hcond : ¬ ((decide ((i : Int) + 65 ≠ 74) && decide ((i : Int) + 65 ∉ w)) = true) := by
        simp only [Bool.and_eq_true, decide_eq_true_eq, not_and, not_not]
        intro h74
        rcases hu.mp hused with h9 | hm
        · omega
        · exact hm
      rw [table_put_used st _ _ hused, if_neg hcond]
      exact ih st w hinv (List.nodup_cons.mp hnd).2 (fun j hj => hl j (List.mem_cons_of_mem _ hj))
    · have hcond : (decide ((i : Int) + 65 ≠ 74) && decide ((i : Int) + 65 ∉ w)) = true := by
        simp only [Bool.and_eq_true, decide_eq_true_eq]
        constructor
        · intro h; exact hused (hu.mpr (Or.inl (by omega)))
        · intro h; exact hused (hu.mpr (Or.inr h))
      have hnext := table_put_new st w (i : Int) ((i : Int) + 65) hinv
        (by simpa using hused) rfl
      have := ih _ _ hnext (List.nodup_cons.mp hnd).2
        (fun j hj => hl j (List.mem_cons_of_mem _ hj))
      rw [if_pos hcond]
      have hfil : (l.map (fun (i : Nat) => (i : Int) + 65)).filter
            (fun c => decide (c ≠ 74) && decide (c ∉ w ++ [(i : Int) + 65]))
          = (l.map (fun (i : Nat) => (i : Int) + 65)).filter
            (fun c => decide (c ≠ 74) && decide (c ∉ w)) := by
        apply List.filter_congr
        intro c hc
        obtain ⟨j, hj, rfl⟩ := List.mem_map.mp hc
        have hji : j ≠ i := fun h => (List.nodup_cons.mp hnd).1 (h ▸ hj)
        have : ¬ (j : Int) + 65 = (i : Int) + 65 := by omega
        simp [this]
      rw [hfil] at this
      simpa using this

/-- The state of `build_table` on a key of distinct characters other than J. -/
theorem build_table_state_inv (key : List Int) (hnd : key.Nodup) (hj : ∀ c ∈ key, c ≠ 74) :
    TableInv (build_table_state key) (key ++ filler key) := by
  have h0 : TableInv
      { used := fun i => decide (i = 74 - 65), r := 0, c := 0, table := fun _ _ => none } [] := by
    refine ⟨by decide, rfl, ?_, ?_⟩
    · intro r c; simp
    · intro i; simp
  have h1 := build_loop1 key _ [] h0 hnd (fun c hc => ⟨hj c hc, by simp⟩)
  have h2 := build_loop2 (List.range 26) _ _ h1 (List.nodup_range 26)
    (fun i hi => List.mem_range.mp hi)
  have hfil : filler key = ((List.range 26).map (fun (i : Nat) => (i : Int) + 65)).filter
      (fun c => decide (c ≠ 74) && decide (c ∉ [] ++ key)) := by
    unfold filler letters25 letters26
    rw [List.filter_filter]
    apply List.filter_congr
    intro c _
    simp [Bool.and_comm]
  unfold build_table_state
  rw [hfil]
  simpa using h2

theorem key_filler_nodup (key : List Int) (hnd : key.Nodup) : (key ++ filler key).Nodup := by
  refine hnd.append (letters25_nodup.filter _) ?_
  intro c hc hf
  have := (List.mem_filter.mp hf).2
  simp only [decide_eq_true_eq] at this
  exact this hc

theorem key_filler_perm (key : List Int) (hnd : key.Nodup)
    (hmem : ∀ c ∈ key, IsUpper c ∧ c ≠ 74) : (key ++ filler key).Perm letters25 := by
  rw [List.perm_ext_iff_of_nodup (key_filler_nodup key hnd) letters25_nodup]
  intro c
  simp only [filler, List.mem_append, List.mem_filter, decide_eq_true_eq]
  constructor
  · rintro (h | h)
    · exact (mem_letters25 c).mpr (hmem c h)
    · exact h.1
  · intro h
    by_cases hc : c ∈ key
    · exact Or.inl hc
    · exact Or.inr ⟨h, hc⟩

theorem key_filler_length (key : List Int) (hnd : key.Nodup)
    (hmem : ∀ c ∈ key, IsUpper c ∧ c ≠ 74) : (key ++ filler key).length = 25 := by
  rw [(key_filler_perm key hnd hmem).length_eq, letters25_length]

theorem read_table_eq (table : Nat → Nat → Option Int) :
    read_table table = (List.range 25).map (fun p => table (p / 5) (p % 5)) := rfl

theorem read_table_of_inv (st : TableState) (w : List Int) (hinv : TableInv st w)
    (hlen : w.length = 25) : read_table st.table = w.map some := by
  rw [read_table_eq]
  apply List.ext_getElem?
  intro p
  by_cases hp : p < 25
  · rw [List.getElem?_map, List.getElem?_range hp, List.getElem?_map,
      List.getElem?_eq_getElem (by omega : p < w.length)]
    simp only [Option.map_some', Option.some.injEq]
    rw [hinv.2.2.1, if_pos (Nat.mod_lt p (by decide)), Nat.div_add_mod,
      List.getElem?_eq_getElem (by omega : p < w.length)]
  · rw [List.getElem?_eq_none (by simp; omega), List.getElem?_eq_none (by simp; omega)]

/-- The table built from a key of distinct letters other than J: the cells of the grid
hold the key followed by the remaining letters, and no other cell is written. -/
theorem build_table_cells (key : List Int) (hnd : key.Nodup)
    (hmem : ∀ c ∈ key, IsUpper c ∧ c ≠ 74) :
    (∀ r c, r < 5 → c < 5 → build_table key r c = (key ++ filler key)[5 * r + c]?)
    ∧ (∀ r c, ¬ (r < 5 ∧ c < 5) → build_table key r c = none) := by
  have hinv := build_table_state_inv key hnd (fun c hc => (hmem c hc).2)
  have hlen := key_filler_length key hnd hmem
  constructor
  · intro r c _ hc
    unfold build_table
    rw [hinv.2.2.1, if_pos hc]
  · intro r c hrc
    unfold build_table
    rw [hinv.2.2.1]
    by_cases hc : c < 5
    · rw [if_pos hc, List.getElem?_eq_none (by omega)]
    · rw [if_neg hc]

/-- Every letter of A–Z without J is in exactly one cell of the grid of the table built
from a key of distinct letters other than J. -/
theorem build_table_unique_cell (key : List Int) (hnd : key.Nodup)
    (hmem : ∀ c ∈ key, IsUpper c ∧ c ≠ 74) (x : Int) (hx : IsUpper x) (hj : x ≠ 74) :
    ∃! p : Nat × Nat, p.1 < 5 ∧ p.2 < 5 ∧ build_table key p.1 p.2 = some x := by
  obtain ⟨hcell, -⟩ := build_table_cells key hnd hmem
  have hlen := key_filler_length key hnd hmem
  have hxw : x ∈ key ++ filler key :=
    (key_filler_perm key hnd hmem).mem_iff.mpr ((mem_letters25 x).mpr ⟨hx, hj⟩)
  obtain ⟨k, hk, hkx⟩ := List.getElem_of_mem hxw
  have hk25 : k < 25 := by omega
  refine ⟨(k / 5, k % 5), ⟨by dsimp only; omega, Nat.mod_lt k (by decide), ?_⟩, ?_⟩
  · dsimp only
    rw [hcell (k / 5) (k % 5) (by omega) (Nat.mod_lt k (by decide)), Nat.div_add_mod,
      List.getElem?_eq_getElem hk, hkx]
  · rintro ⟨r, c⟩ ⟨hr, hc, hrc⟩
    dsimp only at hr hc hrc
    rw [hcell r c hr hc, List.getElem?_eq_getElem (by omega : 5 * r + c < _)] at hrc
    have heq : (key ++ filler key)[5 * r + c] = (key ++ filler key)[k] := by
      rw [hkx]; exact Option.some.inj hrc
    have := ((key_filler_nodup key hnd).getElem_inj_iff).mp heq
    apply Prod.ext <;> dsimp only <;> omega

/-! ## C3 : the row-major reading of the table -/

/-- C3: for every keyword string, reading the table built by
build_table(sanitize_keyword(keyword)) in row-major order gives exactly the sanitized
keyword (the alphabetic characters uppercased, J folded to I, first occurrences only)
followed by all letters of A–Z other than J that are not in the sanitized keyword, in
ascending order. -/
theorem build_table_row_major (keyword : List Int) (hchar : ∀ c ∈ keyword, IsChar c) :
    read_table (build_table (sanitize_keyword keyword))
      = (sanitize_spec keyword
          ++ letters25.filter (fun c => decide (c ∉ sanitize_spec keyword))).map some := by
  rw [sanitize_keyword_eq_spec keyword hchar]
  exact read_table_of_inv _ _
    (build_table_state_inv _ (sanitize_spec_nodup keyword)
      (fun c hc => (mem_sanitize_spec keyword c hc).2))
    (key_filler_length _ (sanitize_spec_nodup keyword) (mem_sanitize_spec keyword))

/-- C3 at the keyword "Monarchy": the table reads MONAR CHYBD EFGIK LPQST UVWXZ. -/
theorem build_table_row_major_witness :
    read_table (build_table (sanitize_keyword (str "Monarchy")))
      = (sanitize_spec (str "Monarchy")
          ++ letters25.filter (fun c => decide (c ∉ sanitize_spec (str "Monarchy")))).map some :=
  build_table_row_major (str "Monarchy") (by decide)

/-! ## C2 : the table holds each of the 25 letters exactly once -/

/-- C2: for every keyword string, in the table produced by `build_table` applied to
sanitize_keyword(keyword) every letter of A–Z without J is in exactly one cell of the
5×5 grid, every cell of the grid is written and holds such a letter (never J), and no
cell outside the grid is written. -/
theorem build_table_bijection (keyword : List Int) (hchar : ∀ c ∈ keyword, IsChar c) :
    (∀ x, IsUpper x → x ≠ 74 → ∃! p : Nat × Nat,
        p.1 < 5 ∧ p.2 < 5 ∧ build_table (sanitize_keyword keyword) p.1 p.2 = some x)
    ∧ (∀ r c, r < 5 → c < 5 →
        ∃ x, build_table (sanitize_keyword keyword) r c = some x ∧ IsUpper x ∧ x ≠ 74)
    ∧ (∀ r c, ¬ (r < 5 ∧ c < 5) → build_table (sanitize_keyword keyword) r c = none) := by
  rw [sanitize_keyword_eq_spec keyword hchar]
  have hnd := sanitize_spec_nodup keyword
  have hmem := mem_sanitize_spec keyword
  obtain ⟨hcell, hout⟩ := build_table_cells _ hnd hmem
  have hlen := key_filler_length _ hnd hmem
  refine ⟨fun x hx hj => build_table_unique_cell _ hnd hmem x hx hj, ?_, hout⟩
  intro r c hr hc
  have hlt : 5 * r + c < (sanitize_spec keyword ++ filler (sanitize_spec keyword)).length := by
    omega
  refine ⟨_, by rw [hcell r c hr hc, List.getElem?_eq_getElem hlt], ?_⟩
  exact (mem_letters25 _).mp
    ((key_filler_perm _ hnd hmem).mem_iff.mp (List.getElem_mem hlt))

/-- C2 at the keyword "Playfair example". -/
theorem build_table_bijection_witness :
    (∀ x, IsUpper x → x ≠ 74 → ∃! p : Nat × Nat, p.1 < 5 ∧ p.2 < 5
        ∧ build_table (sanitize_keyword (str "Playfair example")) p.1 p.2 = some x)
    ∧ (∀ r c, r < 5 → c < 5 → ∃ x,
        build_table (sanitize_keyword (str "Playfair example")) r c = some x
          ∧ IsUpper x ∧ x ≠ 74)
    ∧ (∀ r c, ¬ (r < 5 ∧ c < 5) →
        build_table (sanitize_keyword (str "Playfair example")) r c = none) :=
  build_table_bijection (str "Playfair example") (by decide)

/-! ## The table handed to playfair_encrypt -/

/-- In the table built from a keyword string, read as characters, every letter of A–Z
without J is in exactly one cell of the grid. -/
theorem table_chars_unique_cell (keyword : List Int) (hchar : ∀ c ∈ keyword, IsChar c)
    (x : Int) (hx : IsUpper x) (hj : x ≠ 74) :
    ∃! p : Nat × Nat, p.1 < 5 ∧ p.2 < 5
      ∧ table_chars (build_table (sanitize_keyword keyword)) p.1 p.2 = x := by
  rw [sanitize_keyword_eq_spec keyword hchar]
  have hnd := sanitize_spec_nodup keyword
  have hmem := mem_sanitize_spec keyword
  obtain ⟨hcell, -⟩ := build_table_cells _ hnd hmem
  have hlen := key_filler_length _ hnd hmem
  obtain ⟨p, hp, huniq⟩ := build_table_unique_cell _ hnd hmem x hx hj
  refine ⟨p, ⟨hp.1, hp.2.1, by simp [table_chars, hp.2.2]⟩, ?_⟩
  intro q hq
  apply huniq q
  refine ⟨hq.1, hq.2.1, ?_⟩
  have hlt : 5 * q.1 + q.2
      < (sanitize_spec keyword ++ filler (sanitize_spec keyword)).length := by
    have := hq.1; have := hq.2.1; omega
  have h := hq.2.2
  simp only [table_chars, hcell q.1 q.2 hq.1 hq.2.1, List.getElem?_eq_getElem hlt,
    Option.getD_some] at h
  rw [hcell q.1 q.2 hq.1 hq.2.1, List.getElem?_eq_getElem hlt, h]

/-- C5 at the table of the keyword "MONARCHY" and the text "BALXLOON". -/
theorem playfair_encrypt_rule_witness :
    ∃ out, playfair_encrypt (table_chars (build_table (sanitize_keyword (str "MONARCHY"))))
        (str "BALXLOON") = some out
      ∧ out.length = (str "BALXLOON").length
      ∧ ∀ k a b r1 c1 r2 c2, (str "BALXLOON")[2 * k]? = some a →
          (str "BALXLOON")[2 * k + 1]? = some b →
          r1 < 5 → c1 < 5 →
          table_chars (build_table (sanitize_keyword (str "MONARCHY"))) r1 c1 = a →
          r2 < 5 → c2 < 5 →
          table_chars (build_table (sanitize_keyword (str "MONARCHY"))) r2 c2 = b →
          (r1 = r2 → out[2 * k]? = some
                (table_chars (build_table (sanitize_keyword (str "MONARCHY"))) r1 ((c1 + 1) % 5))
              ∧ out[2 * k + 1]? = some
                (table_chars (build_table (sanitize_keyword (str "MONARCHY"))) r2 ((c2 + 1) % 5)))
          ∧ (r1 ≠ r2 → c1 = c2 → out[2 * k]? = some
                (table_chars (build_table (sanitize_keyword (str "MONARCHY"))) ((r1 + 1) % 5) c1)
              ∧ out[2 * k + 1]? = some
                (table_chars (build_table (sanitize_keyword (str "MONARCHY"))) ((r2 + 1) % 5) c2))
          ∧ (r1 ≠ r2 → c1 ≠ c2 → out[2 * k]? = some
                (table_chars (build_table (sanitize_keyword (str "MONARCHY"))) r1 c2)
              ∧ out[2 * k + 1]? = some
                (table_chars (build_table (sanitize_keyword (str "MONARCHY"))) r2 c1)) :=
  playfair_encrypt_rule (table_chars (build_table (sanitize_keyword (str "MONARCHY"))))
    (table_chars_unique_cell (str "MONARCHY") (by decide))
    (str "BALXLOON") (by decide) (by decide)

/-! ## C11 : the remainder of a negative row sum -/

/-- C11 (the code at a failing input): with the 1×1 key [[-1]] and the text "B" the row
sum is -1, `sum % 26` is -1 (the remainder of C truncates towards zero), and the
character written is 64, which is not a letter; the non-negative remainder of -1 modulo
26 is 25, which would have given 'Z' (90). -/
theorem hill_encrypt_negative_entry :
    hill_row_sum 1 (matrix_of [[-1]] 0) ((str "B").map (fun c => c - 65)) = -1
    ∧ Int.tmod (-1) 26 = -1
    ∧ hill_encrypt 1 (matrix_of [[-1]]) (str "B") = some [64]
    ∧ ¬ IsUpper 64
    ∧ (65 : Int) + (-1) % 26 = 90 := by
  refine ⟨by decide, by decide, by decide, by decide, by decide⟩

/-! ## C13 : the table of the keyword MONARCHY -/

set_option maxRecDepth 100000 in
/-- C13: for the keyword "MONARCHY", `sanitize_keyword` followed by `build_table` yields
the table with rows M,O,N,A,R / C,H,Y,B,D / E,F,G,I,K / L,P,Q,S,T / U,V,W,X,Z. -/
theorem build_table_monarchy :
    table_rows (build_table (sanitize_keyword (str "MONARCHY")))
      = [(str "MONAR").map some, (str "CHYBD").map some, (str "EFGIK").map some,
         (str "LPQST").map some, (str "UVWXZ").map some] := by
  decide

/-! ## C16 : the table of an empty keyword -/

theorem sanitize_keyword_no_alpha (keyword : List Int) (hchar : ∀ c ∈ keyword, IsChar c)
    (hna : ∀ c ∈ keyword, isalpha c = false) : sanitize_keyword keyword = [] := by
  rw [sanitize_keyword_eq_spec keyword hchar]
  unfold sanitize_spec
  have : keyword.filter isalpha = [] := by
    rw [List.filter_eq_nil_iff]
    intro c hc
    rw [hna c hc]
    decide
  rw [this]
  rfl

set_option maxRecDepth 100000 in
theorem build_table_nil_rows :
    table_rows (build_table [])
      = [(str "ABCDE").map some, (str "FGHIK").map some, (str "LMNOP").map some,
         (str "QRSTU").map some, (str "VWXYZ").map some] := by
  decide

/-- C16: for every keyword that sanitizes to the empty string, in particular every
keyword string without an alphabetic character, `build_table` produces the full table
of the residual alphabet: rows A,B,C,D,E / F,G,H,I,K / L,M,N,O,P / Q,R,S,T,U /
V,W,X,Y,Z. -/
theorem build_table_empty_keyword (keyword : List Int)
    (h : sanitize_keyword keyword = []
      ∨ ((∀ c ∈ keyword, IsChar c) ∧ ∀ c ∈ keyword, isalpha c = false)) :
    sanitize_keyword keyword = []
    ∧ table_rows (build_table (sanitize_keyword keyword))
      = [(str "ABCDE").map some, (str "FGHIK").map some, (str "LMNOP").map some,
         (str "QRSTU").map some, (str "VWXYZ").map some] := by
  have hs : sanitize_keyword keyword = [] := by
    rcases h with h | ⟨hchar, hna⟩
    · exact h
    · exact sanitize_keyword_no_alpha keyword hchar hna
  rw [hs]
  exact ⟨rfl, build_table_nil_rows⟩

/-- C16 at the keyword "12 34!", which has no alphabetic character. -/
theorem build_table_empty_keyword_witness :
    sanitize_keyword (str "12 34!") = []
    ∧ table_rows (build_table (sanitize_keyword (str "12 34!")))
      = [(str "ABCDE").map some, (str "FGHIK").map some, (str "LMNOP").map some,
         (str "QRSTU").map some, (str "VWXYZ").map some] :=
  build_table_empty_keyword (str "12 34!") (Or.inr ⟨by decide, by decide⟩)

/-! ## C14 : padding is idempotent -/

theorem pad_loop_of_multiple (n : Nat) (hn : 0 < n) (buf : List Int)
    (h : buf.length % n = 0) (fuel : Nat) : pad_loop n fuel buf = some buf := by
  cases fuel <;> simp [pad_loop, h, Nat.pos_iff_ne_zero.mp hn]

/-- C14: for every block size n > 0 and every buffer whose length is already a multiple
of n, the padding loop appends nothing and returns the buffer unchanged (with any fuel);
this holds for the empty buffer, and padding the result of the padding loop again with
the same n returns it unchanged. -/
theorem pad_idempotent (n : Nat) (hn : 0 < n) (buf : List Int) (h : buf.length % n = 0) :
    (∀ fuel, pad_loop n fuel buf = some buf)
    ∧ pad n buf = some buf
    ∧ pad n [] = some []
    ∧ (∀ other padded, pad n other = some padded → pad n padded = some padded) := by
  refine ⟨pad_loop_of_multiple n hn buf h, pad_loop_of_multiple n hn buf h n,
    pad_loop_of_multiple n hn [] (by simp) n, ?_⟩
  intro other padded hp
  obtain ⟨h1, h2, h3⟩ := pad_count n other.length hn
  have he : pad n other = some (other ++ List.replicate ((n - other.length % n) % n) 88) :=
    pad_loop_replicate n hn _ other n h1 h2 (by omega)
  rw [he] at hp
  cases hp
  exact pad_loop_of_multiple n hn _
    (by rw [List.length_append, List.length_replicate]; exact h1) n

/-- C14 at the buffer "HELLOX" and n = 2. -/
theorem pad_idempotent_witness :
    (∀ fuel, pad_loop 2 fuel (str "HELLOX") = some (str "HELLOX"))
    ∧ pad 2 (str "HELLOX") = some (str "HELLOX")
    ∧ pad 2 [] = some []
    ∧ (∀ other padded, pad 2 other = some padded → pad 2 padded = some padded) :=
  pad_idempotent 2 (by decide) (str "HELLOX") (by decide)

/-! ## C15 : the blocks are encrypted independently -/

theorem hill_blocks_append (n : Nat) (K : Nat → Nat → Int) (m2 : Nat) (t : List Int) :
    ∀ (m1 : Nat) (s : List Int), s.length = m1 * n →
      hill_blocks n K (m1 + m2) (s ++ t) = hill_blocks n K m1 s ++ hill_blocks n K m2 t := by
  intro m1
  induction m1 with
  | zero =>
    intro s hlen
    have hs : s = [] := List.length_eq_zero.mp (by simpa using hlen)
    simp [hs, hill_blocks]
  | succ m1 ih =>
    intro s hlen
    have hl : s.length = m1 * n + n := by rw [hlen]; ring
    rw [Nat.succ_add]
    simp only [hill_blocks]
    rw [List.take_append_of_le_length (by omega), List.drop_append_of_le_length (by omega),
      ih (s.drop n) (by rw [List.length_drop]; omega), List.append_assoc]

/-- C15: for every n ≥ 1, every n×n key matrix and all texts s and t whose lengths are
multiples of n, `hill_encrypt` returns on s, on t and on s ++ t, and
hill_encrypt(n, K, s ++ t) = hill_encrypt(n, K, s) ++ hill_encrypt(n, K, t). -/
theorem hill_encrypt_append (n : Nat) (hn : 1 ≤ n) (K : Nat → Nat → Int)
    (s t : List Int) (hs : s.length % n = 0) (ht : t.length % n = 0) :
    ∃ a b, hill_encrypt n K s = some a ∧ hill_encrypt n K t = some b
      ∧ hill_encrypt n K (s ++ t) = some (a ++ b) := by
  have hms : s.length = s.length / n * n :=
    (Nat.div_mul_cancel (Nat.dvd_of_mod_eq_zero hs)).symm
  have hmt : t.length = t.length / n * n :=
    (Nat.div_mul_cancel (Nat.dvd_of_mod_eq_zero ht)).symm
  refine ⟨_, _, hill_encrypt_eq_blocks n hn K s hs, hill_encrypt_eq_blocks n hn K t ht, ?_⟩
  have hlen : (s ++ t).length = (s.length / n + t.length / n) * n := by
    rw [List.length_append, Nat.add_mul, ← hms, ← hmt]
  have hle : s.length / n + t.length / n ≤ (s ++ t).length := by
    rw [List.length_append]
    exact Nat.add_le_add (Nat.div_le_self _ _) (Nat.div_le_self _ _)
  unfold hill_encrypt
  rw [hill_loop_eq_blocks n hn K _ _ (s ++ t) hlen hle, hill_blocks_append n K _ t _ s hms]

/-- C15 at the key [[3,3],[2,5]] and the texts "HELP" and "ME". -/
theorem hill_encrypt_append_witness :
    ∃ a b, hill_encrypt 2 (matrix_of [[3, 3], [2, 5]]) (str "HELP") = some a
      ∧ hill_encrypt 2 (matrix_of [[3, 3], [2, 5]]) (str "ME") = some b
      ∧ hill_encrypt 2 (matrix_of [[3, 3], [2, 5]]) (str "HELP" ++ str "ME") = some (a ++ b) :=
  hill_encrypt_append 2 (by decide) (matrix_of [[3, 3], [2, 5]]) (str "HELP") (str "ME")
    (by decide) (by decide)

/-! ## C17 : a plaintext without letters -/

theorem normalize_no_alpha (raw_plain : List Int) (hna : ∀ c ∈ raw_plain, isalpha c = false) :
    normalize raw_plain = [] := by
  unfold normalize
  rw [normalize_foldl]
  have : raw_plain.filter isalpha = [] := by
    rw [List.filter_eq_nil_iff]
    intro c hc
    rw [hna c hc]
    decide
  simp [this]

/-- C17: for every plaintext that normalizes to zero letters, in particular every
plaintext without an alphabetic character, every block size n ≥ 1, every key matrix and
every keyword, `main` returns; the padding loop adds nothing, and the padded plaintext,
the Hill ciphertext, the Playfair-preprocessed text and the final Playfair ciphertext are
all the empty string. -/
theorem main_empty_plaintext (n : Nat) (hn : 1 ≤ n) (matrix : Nat → Nat → Int)
    (raw_plain keyword_raw : List Int)
    (h : normalize raw_plain = [] ∨ ∀ c ∈ raw_plain, isalpha c = false) :
    ∃ t, main n matrix raw_plain keyword_raw = some t
      ∧ t.preprocessed = [] ∧ t.padded = [] ∧ t.hill = [] ∧ t.pf_input = []
      ∧ t.playfair = [] := by
  have hnorm : normalize raw_plain = [] := by
    rcases h with h | h
    · exact h
    · exact normalize_no_alpha raw_plain h
  have hpad : pad n [] = some [] := pad_loop_of_multiple n (by omega) [] (by simp) n
  have hhill : hill_encrypt n matrix [] = some [] := by simp [hill_encrypt, hill_loop]
  have hpre : playfair_preprocess [] = some [] := by
    simp [playfair_preprocess, playfair_preprocess_loop]
  have hmain : main n matrix raw_plain keyword_raw
      = some { preprocessed := [], padded := [], hill := [],
               keyword := sanitize_keyword keyword_raw,
               table := build_table (sanitize_keyword keyword_raw),
               pf_input := [], playfair := [] } := by
    unfold main
    simp only [hnorm, hpad, hhill, hpre, playfair_encrypt]
  exact ⟨_, hmain, rfl, rfl, rfl, rfl, rfl⟩

/-- C17 at the plaintext "12 34!", n = 2, the key [[3,3],[2,5]] and the keyword
"MONARCHY". -/
theorem main_empty_plaintext_witness :
    ∃ t, main 2 (matrix_of [[3, 3], [2, 5]]) (str "12 34!") (str "MONARCHY") = some t
      ∧ t.preprocessed = [] ∧ t.padded = [] ∧ t.hill = [] ∧ t.pf_input = []
      ∧ t.playfair = [] :=
  main_empty_plaintext 2 (by decide) (matrix_of [[3, 3], [2, 5]]) (str "12 34!")
    (str "MONARCHY") (Or.inr (by decide))

/-! ## The digraph split : length, letters and doubled letters -/

theorem playfair_preprocess_eq (input : List Int) :
    playfair_preprocess input = some (digraph_split (input.map foldJ)) := by
  have := playfair_preprocess_loop_eq input input.length 0 [] (by omega)
  simpa [playfair_preprocess] using this

theorem digraph_split_length (l : List Int) :
    (digraph_split l).length % 2 = 0 ∧ l.length ≤ (digraph_split l).length
      ∧ (digraph_split l).length ≤ 2 * l.length := by
  induction l using digraph_split.induct with
  | case1 => simp [digraph_split]
  | case2 a => simp [digraph_split]
  | case3 b rest ih =>
    simp only [digraph_split, if_true, List.length_cons] at ih ⊢
    omega
  | case4 a b rest hab ih =>
    simp only [digraph_split, hab, if_false, List.length_cons] at ih ⊢
    omega

theorem digraph_split_sublist (l : List Int) : l.Sublist (digraph_split l) := by
  induction l using digraph_split.induct with
  | case1 => simp [digraph_split]
  | case2 a => simp [digraph_split]
  | case3 b rest ih =>
    simp only [digraph_split, if_true]
    exact (ih.cons 88).cons₂ b
  | case4 a b rest hab ih =>
    simp only [digraph_split, hab, if_false]
    exact (ih.cons₂ b).cons₂ a

theorem digraph_split_count (l : List Int) (c : Int) (hc : c ≠ 88) :
    (digraph_split l).count c = l.count c := by
  have h88 : ¬ (88 : Int) = c := fun h => hc h.symm
  induction l using digraph_split.induct with
  | case1 => simp [digraph_split]
  | case2 a => simp [digraph_split, List.count_cons, h88]
  | case3 b rest ih =>
    simp only [digraph_split, if_true]
    rw [List.count_cons, List.count_cons, ih]
    simp [List.count_cons, h88]
  | case4 a b rest hab ih =>
    simp only [digraph_split, hab, if_false]
    rw [List.count_cons, List.count_cons, ih]
    simp [List.count_cons]

theorem digraph_split_doubled (l : List Int) :
    ∀ (k : Nat) (x y : Int), (digraph_split l)[2 * k]? = some x →
      (digraph_split l)[2 * k + 1]? = some y → x = y → x = 88 := by
  induction l using digraph_split.induct with
  | case1 => intro k x y h; simp [digraph_split] at h
  | case2 a =>
    intro k x y hx hy hxy
    cases k with
    | zero =>
      simp [digraph_split] at hx hy
      omega
    | succ k =>
      have e : 2 * (k + 1) = (2 * k + 1) + 1 := by ring
      rw [e] at hx
      simp [digraph_split] at hx
  | case3 b rest ih =>
    intro k x y hx hy hxy
    simp only [digraph_split, if_true] at hx hy
    cases k with
    | zero =>
      simp at hx hy
      omega
    | succ k =>
      have e1 : 2 * (k + 1) = (2 * k + 1) + 1 := by ring
      have e2 : 2 * (k + 1) + 1 = ((2 * k + 1) + 1) + 1 := by ring
      rw [e1, List.getElem?_cons_succ, List.getElem?_cons_succ] at hx
      rw [e2, List.getElem?_cons_succ, List.getElem?_cons_succ] at hy
      exact ih k x y hx hy hxy
  | case4 a b rest hab ih =>
    intro k x y hx hy hxy
    simp only [digraph_split, hab, if_false] at hx hy
    cases k with
    | zero =>
      simp at hx hy
      omega
    | succ k =>
      have e1 : 2 * (k + 1) = (2 * k + 1) + 1 := by ring
      have e2 : 2 * (k + 1) + 1 = ((2 * k + 1) + 1) + 1 := by ring
      rw [e1, List.getElem?_cons_succ, List.getElem?_cons_succ] at hx
      rw [e2, List.getElem?_cons_succ, List.getElem?_cons_succ] at hy
      exact ih k x y hx hy hxy

/-! ## C12 : playfair_preprocess drops no letter and yields an even length -/

/-- C12: for every buffer s, `playfair_preprocess` returns a text whose length is even
and lies between |s| and 2·|s|; the J-folded input is a subsequence of it, and every
character other than 'X' occurs equally often in it and in the J-folded input. -/
theorem playfair_preprocess_covers (s : List Int) :
    ∃ out, playfair_preprocess s = some out
      ∧ out.length % 2 = 0 ∧ s.length ≤ out.length ∧ out.length ≤ 2 * s.length
      ∧ out.length + 1 ≤ s.length * 2 + 1
      ∧ (s.map foldJ).Sublist out
      ∧ ∀ c, c ≠ 88 → out.count c = (s.map foldJ).count c := by
  have hl := digraph_split_length (s.map foldJ)
  rw [List.length_map] at hl
  exact ⟨_, playfair_preprocess_eq s, hl.1, hl.2.1, hl.2.2, by omega,
    digraph_split_sublist _, fun c hc => digraph_split_count _ c hc⟩

/-! ## C18 : doubled letters in the digraphs -/

/-- C18 (as stated, refuted): the buffer "X" is split into the single digraph (X, X),
whose two letters are identical. -/
theorem playfair_preprocess_doubled_counterexample :
    (∀ c ∈ str "X", IsUpper c)
    ∧ playfair_preprocess (str "X") = some (str "XX")
    ∧ (str "XX")[2 * 0]? = some 88 ∧ (str "XX")[2 * 0 + 1]? = some 88 := by
  decide

/-- C18 (amended): for every buffer, `playfair_preprocess` returns, and a digraph of its
output (positions 2k and 2k+1) consists of two identical letters only if both are 'X';
no digraph consists of two identical letters other than 'X'. -/
theorem playfair_preprocess_doubled (s : List Int) :
    ∃ out, playfair_preprocess s = some out
      ∧ ∀ (k : Nat) (x y : Int), out[2 * k]? = some x → out[2 * k + 1]? = some y →
          x = y → x = 88 :=
  ⟨_, playfair_preprocess_eq s, digraph_split_doubled _⟩

/-! ## The substitution on the cells of the grid -/

theorem playfair_pos_bound (p q : Nat × Nat) (hp : p.1 < 5 ∧ p.2 < 5)
    (hq : q.1 < 5 ∧ q.2 < 5) :
    ((playfair_pos p q).1.1 < 5 ∧ (playfair_pos p q).1.2 < 5)
      ∧ ((playfair_pos p q).2.1 < 5 ∧ (playfair_pos p q).2.2 < 5) := by
  obtain ⟨r1, c1⟩ := p
  obtain ⟨r2, c2⟩ := q
  dsimp only at hp hq
  unfold playfair_pos
  dsimp only
  split_ifs <;> dsimp only <;> omega

theorem playfair_pos_inv_pos (p q : Nat × Nat) (hp : p.1 < 5 ∧ p.2 < 5)
    (hq : q.1 < 5 ∧ q.2 < 5) :
    playfair_pos_inv (playfair_pos p q).1 (playfair_pos p q).2 = (p, q) := by
  obtain ⟨r1, c1⟩ := p
  obtain ⟨r2, c2⟩ := q
  dsimp only at hp hq
  unfold playfair_pos
  dsimp only
  by_cases hr : r1 = r2
  · subst hr
    simp only [if_true, playfair_pos_inv]
    refine Prod.ext (Prod.ext rfl ?_) (Prod.ext rfl ?_) <;> dsimp only <;> omega
  · by_cases hc : c1 = c2
    · subst hc
      have hne : ¬ (r1 + 1) % 5 = (r2 + 1) % 5 := by omega
      simp only [hr, if_false, if_true, playfair_pos_inv, hne]
      refine Prod.ext (Prod.ext ?_ rfl) (Prod.ext ?_ rfl) <;> dsimp only <;> omega
    · have hc' : ¬ c2 = c1 := fun h => hc h.symm
      simp only [hr, hc, hc', if_false, playfair_pos_inv]

theorem playfair_pos_injective (p q p' q' : Nat × Nat) (hp : p.1 < 5 ∧ p.2 < 5)
    (hq : q.1 < 5 ∧ q.2 < 5) (hp' : p'.1 < 5 ∧ p'.2 < 5) (hq' : q'.1 < 5 ∧ q'.2 < 5)
    (h : playfair_pos p q = playfair_pos p' q') : p = p' ∧ q = q' := by
  have h1 := playfair_pos_inv_pos p q hp hq
  have h2 := playfair_pos_inv_pos p' q' hp' hq'
  rw [h, h2] at h1
  exact ⟨(congrArg Prod.fst h1).symm, (congrArg Prod.snd h1).symm⟩

/-! ## Tables that hold each of the 25 letters in exactly one cell -/

theorem letter_of_spec (i : Nat) (hi : i < 25) :
    IsUpper (letter_of i) ∧ letter_of i ≠ 74 := by
  unfold letter_of IsUpper
  split <;> omega

theorem letter_of_injective (i j : Nat) (h : letter_of i = letter_of j) : i = j := by
  unfold letter_of at h
  split at h <;> split at h <;> omega

/-- If each of the 25 letters is in exactly one cell of the grid, every cell of the
grid holds one of the 25 letters. -/
theorem table_cells_letters (table : Nat → Nat → Int)
    (htable : ∀ x, IsUpper x → x ≠ 74 →
      ∃! p : Nat × Nat, p.1 < 5 ∧ p.2 < 5 ∧ table p.1 p.2 = x)
    (r c : Nat) (hr : r < 5) (hc : c < 5) : IsUpper (table r c) ∧ table r c ≠ 74 := by
  have hpos : ∀ i : Fin 25, ∃ p : Nat × Nat,
      p.1 < 5 ∧ p.2 < 5 ∧ table p.1 p.2 = letter_of i.val := by
    intro i
    obtain ⟨p, hp, -⟩ := htable (letter_of i.val) (letter_of_spec i.val i.isLt).1
      (letter_of_spec i.val i.isLt).2
    exact ⟨p, hp⟩
  choose g hg using hpos
  let f : Fin 25 → Fin 25 := fun i =>
    ⟨5 * (g i).1 + (g i).2, by have := (hg i).1; have := (hg i).2.1; omega⟩
  have hinj : Function.Injective f := by
    intro i j hij
    have hv : 5 * (g i).1 + (g i).2 = 5 * (g j).1 + (g j).2 := congrArg Fin.val hij
    have hi1 := (hg i).1
    have hi2 := (hg i).2.1
    have hj1 := (hg j).1
    have hj2 := (hg j).2.1
    have e1 : (g i).1 = (g j).1 := by omega
    have e2 : (g i).2 = (g j).2 := by omega
    have : letter_of i.val = letter_of j.val := by
      rw [← (hg i).2.2, ← (hg j).2.2, e1, e2]
    exact Fin.ext (letter_of_injective _ _ this)
  obtain ⟨i, hi⟩ := (Finite.injective_iff_surjective.mp hinj) ⟨5 * r + c, by omega⟩
  have hv : 5 * (g i).1 + (g i).2 = 5 * r + c := congrArg Fin.val hi
  have hi1 := (hg i).1
  have hi2 := (hg i).2.1
  have e1 : (g i).1 = r := by omega
  have e2 : (g i).2 = c := by omega
  have := (hg i).2.2
  rw [e1, e2] at this
  rw [this]
  exact letter_of_spec i.val i.isLt

theorem table_injective (table : Nat → Nat → Int)
    (htable : ∀ x, IsUpper x → x ≠ 74 →
      ∃! p : Nat × Nat, p.1 < 5 ∧ p.2 < 5 ∧ table p.1 p.2 = x)
    (p q : Nat × Nat) (hp : p.1 < 5 ∧ p.2 < 5) (hq : q.1 < 5 ∧ q.2 < 5)
    (h : table p.1 p.2 = table q.1 q.2) : p = q := by
  obtain ⟨hu, hj⟩ := table_cells_letters table htable p.1 p.2 hp.1 hp.2
  obtain ⟨w, -, hw⟩ := htable _ hu hj
  rw [hw p ⟨hp.1, hp.2, rfl⟩, hw q ⟨hq.1, hq.2, h.symm⟩]

/-- The value of the loop body on a digraph of letters, by the cells of its letters. -/
theorem playfair_pair_pos (table : Nat → Nat → Int)
    (htable : ∀ x, IsUpper x → x ≠ 74 →
      ∃! p : Nat × Nat, p.1 < 5 ∧ p.2 < 5 ∧ table p.1 p.2 = x)
    (a b : Int) (ha : IsUpper a ∧ a ≠ 74) (hb : IsUpper b ∧ b ≠ 74) :
    ∃ p q : Nat × Nat, (p.1 < 5 ∧ p.2 < 5 ∧ table p.1 p.2 = a)
      ∧ (q.1 < 5 ∧ q.2 < 5 ∧ table q.1 q.2 = b)
      ∧ playfair_find table a b = (some p, some q)
      ∧ playfair_pair table a b
        = some (table (playfair_pos p q).1.1 (playfair_pos p q).1.2,
                table (playfair_pos p q).2.1 (playfair_pos p q).2.2) := by
  obtain ⟨⟨r1, c1⟩, h1, hu1⟩ := htable a ha.1 ha.2
  obtain ⟨⟨r2, c2⟩, h2, hu2⟩ := htable b hb.1 hb.2
  refine ⟨(r1, c1), (r2, c2), h1, h2,
    playfair_find_unique table a b r1 c1 r2 c2 h1 h2 hu1 hu2, ?_⟩
  rw [playfair_pair_rule table a b r1 c1 r2 c2 h1 h2 hu1 hu2]
  unfold playfair_pos
  dsimp only
  split_ifs <;> rfl

/-! ## C20 : the digraph substitution is injective -/

theorem playfair_pair_inj (table : Nat → Nat → Int)
    (htable : ∀ x, IsUpper x → x ≠ 74 →
      ∃! p : Nat × Nat, p.1 < 5 ∧ p.2 < 5 ∧ table p.1 p.2 = x)
    (a b a' b' : Int) (ha : IsUpper a ∧ a ≠ 74) (hb : IsUpper b ∧ b ≠ 74)
    (ha' : IsUpper a' ∧ a' ≠ 74) (hb' : IsUpper b' ∧ b' ≠ 74)
    (h : playfair_pair table a b = playfair_pair table a' b') : a = a' ∧ b = b' := by
  obtain ⟨p, q, hp, hq, -, e⟩ := playfair_pair_pos table htable a b ha hb
  obtain ⟨p', q', hp', hq', -, e'⟩ := playfair_pair_pos table htable a' b' ha' hb'
  rw [e, e'] at h
  have h1 : table (playfair_pos p q).1.1 (playfair_pos p q).1.2
      = table (playfair_pos p' q').1.1 (playfair_pos p' q').1.2 :=
    congrArg Prod.fst (Option.some.inj h)
  have h2 : table (playfair_pos p q).2.1 (playfair_pos p q).2.2
      = table (playfair_pos p' q').2.1 (playfair_pos p' q').2.2 :=
    congrArg Prod.snd (Option.some.inj h)
  have b1 := playfair_pos_bound p q ⟨hp.1, hp.2.1⟩ ⟨hq.1, hq.2.1⟩
  have b2 := playfair_pos_bound p' q' ⟨hp'.1, hp'.2.1⟩ ⟨hq'.1, hq'.2.1⟩
  have o1 := table_injective table htable _ _ b1.1 b2.1 h1
  have o2 := table_injective table htable _ _ b1.2 b2.2 h2
  obtain ⟨e1, e2⟩ := playfair_pos_injective p q p' q' ⟨hp.1, hp.2.1⟩ ⟨hq.1, hq.2.1⟩
    ⟨hp'.1, hp'.2.1⟩ ⟨hq'.1, hq'.2.1⟩ (Prod.ext o1 o2)
  constructor
  · rw [← hp.2.2, ← hp'.2.2, e1]
  · rw [← hq.2.2, ← hq'.2.2, e2]

theorem playfair_pair_some (table : Nat → Nat → Int)
    (htable : ∀ x, IsUpper x → x ≠ 74 →
      ∃! p : Nat × Nat, p.1 < 5 ∧ p.2 < 5 ∧ table p.1 p.2 = x)
    (a b : Int) (ha : IsUpper a ∧ a ≠ 74) (hb : IsUpper b ∧ b ≠ 74) :
    ∃ x y, playfair_pair table a b = some (x, y) := by
  obtain ⟨p, q, -, -, -, e⟩ := playfair_pair_pos table htable a b ha hb
  exact ⟨_, _, e⟩

theorem playfair_encrypt_inj (table : Nat → Nat → Int)
    (htable : ∀ x, IsUpper x → x ≠ 74 →
      ∃! p : Nat × Nat, p.1 < 5 ∧ p.2 < 5 ∧ table p.1 p.2 = x) :
    ∀ (m : Nat) (s t : List Int), s.length = 2 * m →
      (∀ x ∈ s, IsUpper x ∧ x ≠ 74) → (∀ x ∈ t, IsUpper x ∧ x ≠ 74) →
      t.length % 2 = 0 → playfair_encrypt table s = playfair_encrypt table t → s = t := by
  have hpair := playfair_pair_some table htable
  have hsome : ∀ u : List Int, (∀ x ∈ u, IsUpper x ∧ x ≠ 74) → u.length % 2 = 0 →
      ∃ out, playfair_encrypt table u = some out := by
    intro u hu he
    obtain ⟨out, ho, -⟩ := playfair_encrypt_pairs table hpair (u.length / 2) u (by omega) hu
    exact ⟨out, ho⟩
  intro m
  induction m with
  | zero =>
    intro s t hs _ ht hte h
    have hs0 : s = [] := List.length_eq_zero.mp (by simpa using hs)
    subst hs0
    match t, ht, hte, h with
    | [], _, _, _ => rfl
    | [_], _, hte, _ => simp at hte
    | a :: b :: t', ht, hte, h =>
      obtain ⟨x, y, hxy⟩ := hpair a b (ht a (List.mem_cons_self _ _))
        (ht b (List.mem_cons_of_mem _ (List.mem_cons_self _ _)))
      obtain ⟨out, ho⟩ := hsome t'
        (fun x hx => ht x (List.mem_cons_of_mem _ (List.mem_cons_of_mem _ hx)))
        (by simp at hte; omega)
      simp [playfair_encrypt, hxy, ho] at h
  | succ m ih =>
    intro s t hs hsl ht hte h
    match s, hs, hsl, h with
    | [], hs, _, _ => simp at hs
    | [_], hs, _, _ => simp at hs; omega
    | a :: b :: s', hs, hsl, h =>
      have hs' : s'.length = 2 * m := by simp at hs; omega
      have hsl' : ∀ x ∈ s', IsUpper x ∧ x ≠ 74 :=
        fun x hx => hsl x (List.mem_cons_of_mem _ (List.mem_cons_of_mem _ hx))
      have hla := hsl a (List.mem_cons_self _ _)
      have hlb := hsl b (List.mem_cons_of_mem _ (List.mem_cons_self _ _))
      obtain ⟨x, y, hxy⟩ := hpair a b hla hlb
      obtain ⟨out, ho⟩ := hsome s' hsl' (by omega)
      match t, ht, hte, h with
      | [], _, _, h => simp [playfair_encrypt, hxy, ho] at h
      | [_], _, hte, _ => simp at hte
      | a' :: b' :: t', ht, hte, h =>
        have htl' : ∀ x ∈ t', IsUpper x ∧ x ≠ 74 :=
          fun x hx => ht x (List.mem_cons_of_mem _ (List.mem_cons_of_mem _ hx))
        have hla' := ht a' (List.mem_cons_self _ _)
        have hlb' := ht b' (List.mem_cons_of_mem _ (List.mem_cons_self _ _))
        have hte' : t'.length % 2 = 0 := by simp at hte; omega
        obtain ⟨x', y', hxy'⟩ := hpair a' b' hla' hlb'
        obtain ⟨out', ho'⟩ := hsome t' htl' hte'
        simp only [playfair_encrypt, hxy, ho, hxy', ho', Option.some.injEq, List.cons.injEq] at h
        obtain ⟨hx, hy, hout⟩ := h
        have hp : playfair_pair table a b = playfair_pair table a' b' := by
          rw [hxy, hxy', hx, hy]
        obtain ⟨e1, e2⟩ := playfair_pair_inj table htable a b a' b' hla hlb hla' hlb' hp
        have e3 : s' = t' := ih s' t' hs' hsl' htl' hte' (by rw [ho, ho', hout])
        rw [e1, e2, e3]

/-- C20: for every table containing each of the 25 letters (A–Z without J) in exactly one
cell of the grid, the loop body of `playfair_encrypt` returns on every digraph of table
letters and sends different digraphs to different digraphs, and `playfair_encrypt`
returns on every even-length text over the table's letters and is injective on these
texts. -/
theorem playfair_encrypt_injective (table : Nat → Nat → Int)
    (htable : ∀ x, IsUpper x → x ≠ 74 →
      ∃! p : Nat × Nat, p.1 < 5 ∧ p.2 < 5 ∧ table p.1 p.2 = x) :
    (∀ a b, (IsUpper a ∧ a ≠ 74) → (IsUpper b ∧ b ≠ 74) →
      ∃ x y, playfair_pair table a b = some (x, y))
    ∧ (∀ a b a' b', (IsUpper a ∧ a ≠ 74) → (IsUpper b ∧ b ≠ 74) →
        (IsUpper a' ∧ a' ≠ 74) → (IsUpper b' ∧ b' ≠ 74) →
        playfair_pair table a b = playfair_pair table a' b' → a = a' ∧ b = b')
    ∧ (∀ s, (∀ x ∈ s, IsUpper x ∧ x ≠ 74) → s.length % 2 = 0 →
        ∃ out, playfair_encrypt table s = some out)
    ∧ (∀ s t, (∀ x ∈ s, IsUpper x ∧ x ≠ 74) → (∀ x ∈ t, IsUpper x ∧ x ≠ 74) →
        s.length % 2 = 0 → t.length % 2 = 0 →
        playfair_encrypt table s = playfair_encrypt table t → s = t) := by
  refine ⟨playfair_pair_some table htable, playfair_pair_inj table htable, ?_, ?_⟩
  · intro s hs he
    obtain ⟨out, ho, -⟩ := playfair_encrypt_pairs table (playfair_pair_some table htable)
      (s.length / 2) s (by omega) hs
    exact ⟨out, ho⟩
  · intro s t hs ht hse hte h
    exact playfair_encrypt_inj table htable (s.length / 2) s t (by omega) hs ht hte h

/-- C20 at the table of the keyword "MONARCHY". -/
theorem playfair_encrypt_injective_witness :
    (∀ a b, (IsUpper a ∧ a ≠ 74) → (IsUpper b ∧ b ≠ 74) →
      ∃ x y, playfair_pair (table_chars (build_table (sanitize_keyword (str "MONARCHY")))) a b
        = some (x, y))
    ∧ (∀ a b a' b', (IsUpper a ∧ a ≠ 74) → (IsUpper b ∧ b ≠ 74) →
        (IsUpper a' ∧ a' ≠ 74) → (IsUpper b' ∧ b' ≠ 74) →
        playfair_pair (table_chars (build_table (sanitize_keyword (str "MONARCHY")))) a b
          = playfair_pair (table_chars (build_table (sanitize_keyword (str "MONARCHY")))) a' b' →
        a = a' ∧ b = b')
    ∧ (∀ s, (∀ x ∈ s, IsUpper x ∧ x ≠ 74) → s.length % 2 = 0 →
        ∃ out, playfair_encrypt
          (table_chars (build_table (sanitize_keyword (str "MONARCHY")))) s = some out)
    ∧ (∀ s t, (∀ x ∈ s, IsUpper x ∧ x ≠ 74) → (∀ x ∈ t, IsUpper x ∧ x ≠ 74) →
        s.length % 2 = 0 → t.length % 2 = 0 →
        playfair_encrypt (table_chars (build_table (sanitize_keyword (str "MONARCHY")))) s
          = playfair_encrypt (table_chars (build_table (sanitize_keyword (str "MONARCHY")))) t →
        s = t) :=
  playfair_encrypt_injective (table_chars (build_table (sanitize_keyword (str "MONARCHY"))))
    (table_chars_unique_cell (str "MONARCHY") (by decide))

/-! ## The stages of main on letters -/

theorem normalize_isUpper (raw_plain : List Int) : ∀ c ∈ normalize raw_plain, IsUpper c := by
  intro c hc
  unfold normalize at hc
  rw [normalize_foldl] at hc
  simp only [List.nil_append, List.mem_map, List.mem_filter] at hc
  obtain ⟨x, ⟨-, hx⟩, rfl⟩ := hc
  exact isalpha_toupper hx

theorem pad_letters (n : Nat) (hn : 0 < n) (buf : List Int) (hup : ∀ c ∈ buf, IsUpper c) :
    ∃ padded, pad n buf = some padded ∧ padded.length % n = 0
      ∧ ∀ c ∈ padded, IsUpper c := by
  obtain ⟨h1, h2, h3⟩ := pad_count n buf.length hn
  refine ⟨_, pad_loop_replicate n hn _ buf n h1 h2 (by omega), ?_, ?_⟩
  · rw [List.length_append, List.length_replicate]; exact h1
  · intro c hc
    rcases List.mem_append.mp hc with h | h
    · exact hup c h
    · rw [(List.mem_replicate.mp h).2]; decide

/-- The Hill stage on letters, with non-negative entries and row sums that fit an `int`:
the ciphertext consists of letters. -/
theorem hill_encrypt_letters (n : Nat) (hn : 1 ≤ n) (matrix : Nat → Nat → Int)
    (hnonneg : ∀ j k, j < n → k < n → 0 ≤ matrix j k)
    (text : List Int) (hup : ∀ c ∈ text, IsUpper c) (hlen : text.length % n = 0)
    (hfit : ∀ i j, j < n → i * n + j < text.length →
      ∑ k ∈ Finset.range n, matrix j k * (text.getD (i * n + k) 0 - 65) < 2147483648) :
    ∃ out, hill_encrypt n matrix text = some out ∧ out.length = text.length
      ∧ ∀ c ∈ out, IsUpper c := by
  have hm : text.length = text.length / n * n :=
    (Nat.div_mul_cancel (Nat.dvd_of_mod_eq_zero hlen)).symm
  have hol : (hill_blocks n matrix (text.length / n) text).length = text.length := by
    rw [hill_blocks_length]; exact hm.symm
  refine ⟨_, hill_encrypt_eq_blocks n hn matrix text hlen, hol, ?_⟩
  intro c hc
  obtain ⟨p, hp, hpc⟩ := List.getElem_of_mem hc
  rw [hol] at hp
  have hpn : p % n < n := Nat.mod_lt p (by omega)
  have hpe : p / n * n + p % n = p := by rw [Nat.mul_comm]; exact Nat.div_add_mod p n
  have hi : p / n < text.length / n := by
    apply lt_blocks_of_index_lt (j := p % n)
    rw [hpe, ← hm]; exact hp
  have hfitblk : ∀ j', j' < n → ∑ k ∈ Finset.range n,
      matrix j' k * (((text.drop (p / n * n)).take n).getD k 0 - 65) < 2147483648 := by
    intro j' hj'
    have e : ∑ k ∈ Finset.range n,
          matrix j' k * (((text.drop (p / n * n)).take n).getD k 0 - 65)
        = ∑ k ∈ Finset.range n, matrix j' k * (text.getD (p / n * n + k) 0 - 65) := by
      apply Finset.sum_congr rfl
      intro k hk
      rw [block_getD text (p / n) k (Finset.mem_range.mp hk)]
    rw [e]
    have : (p / n + 1) * n ≤ text.length / n * n := Nat.mul_le_mul_right n hi
    rw [Nat.succ_mul] at this
    exact hfit (p / n) j' hj' (by omega)
  have hget : (hill_blocks n matrix (text.length / n) text)[p]? = some c := by
    rw [List.getElem?_eq_getElem (by rw [hol]; exact hp), hpc]
  rw [← hpe, hill_blocks_getElem? n matrix _ text (p / n) (p % n) hi hpn,
    hill_block_exact_of_fit n matrix hnonneg _ (block_length text hm hi)
      (block_isUpper text (p / n) hup) hfitblk,
    List.getElem?_map, List.getElem?_range hpn, Option.map_some', Option.some.injEq] at hget
  rw [← hget]
  exact hill_exact_isUpper n matrix _ _

theorem mem_digraph_split (l : List Int) : ∀ c, c ∈ digraph_split l → c ∈ l ∨ c = 88 := by
  induction l using digraph_split.induct with
  | case1 => intro c h; simp [digraph_split] at h
  | case2 a =>
    intro c h
    simp only [digraph_split, List.mem_cons, List.mem_singleton, List.not_mem_nil,
      or_false] at h ⊢
    exact h
  | case3 b rest ih =>
    intro c h
    simp only [digraph_split, if_true, List.mem_cons] at h ⊢
    rcases h with h | h | h
    · exact Or.inl (Or.inl h)
    · exact Or.inr h
    · rcases ih c h with h' | h'
      · simp only [List.mem_cons] at h'
        rcases h' with h' | h'
        · exact Or.inl (Or.inl h')
        · exact Or.inl (Or.inr (Or.inr h'))
      · exact Or.inr h'
  | case4 a b rest hab ih =>
    intro c h
    simp only [digraph_split, hab, if_false, List.mem_cons] at h ⊢
    rcases h with h | h | h
    · exact Or.inl (Or.inl h)
    · exact Or.inl (Or.inr (Or.inl h))
    · rcases ih c h with h' | h'
      · exact Or.inl (Or.inr (Or.inr h'))
      · exact Or.inr h'

theorem playfair_preprocess_letters (text : List Int) (hup : ∀ c ∈ text, IsUpper c) :
    ∃ pf, playfair_preprocess text = some pf ∧ pf.length % 2 = 0
      ∧ ∀ c ∈ pf, IsUpper c ∧ c ≠ 74 := by
  refine ⟨_, playfair_preprocess_eq text, (digraph_split_length _).1, ?_⟩
  intro c hc
  rcases mem_digraph_split _ c hc with h | h
  · obtain ⟨x, hx, rfl⟩ := List.mem_map.mp h
    have := hup x hx
    unfold IsUpper at this ⊢
    unfold foldJ
    split <;> omega
  · rw [h]; decide

/-- The Playfair stage on an even-length text of table letters: it returns a text of the
same length that consists of table letters. -/
theorem playfair_encrypt_letters (table : Nat → Nat → Int)
    (htable : ∀ x, IsUpper x → x ≠ 74 →
      ∃! p : Nat × Nat, p.1 < 5 ∧ p.2 < 5 ∧ table p.1 p.2 = x)
    (text : List Int) (htext : ∀ x ∈ text, IsUpper x ∧ x ≠ 74)
    (heven : text.length % 2 = 0) :
    ∃ out, playfair_encrypt table text = some out ∧ out.length = text.length
      ∧ ∀ c ∈ out, IsUpper c ∧ c ≠ 74 := by
  obtain ⟨out, ho, hol, hk⟩ := playfair_encrypt_pairs table (playfair_pair_some table htable)
    (text.length / 2) text (by omega) htext
  refine ⟨out, ho, hol, ?_⟩
  intro c hc
  obtain ⟨p, hp, hpc⟩ := List.getElem_of_mem hc
  have h0 : 2 * (p / 2) < text.length := by omega
  have h1 : 2 * (p / 2) + 1 < text.length := by omega
  obtain ⟨x, y, hxy, hx, hy⟩ := hk (p / 2) _ _ (List.getElem?_eq_getElem h0)
    (List.getElem?_eq_getElem h1)
  have ha := htext _ (List.getElem_mem h0)
  have hb := htext _ (List.getElem_mem h1)
  obtain ⟨q1, q2, hq1, hq2, -, e⟩ := playfair_pair_pos table htable _ _ ha hb
  rw [e] at hxy
  have hxv := congrArg Prod.fst (Option.some.inj hxy)
  have hyv := congrArg Prod.snd (Option.some.inj hxy)
  dsimp only at hxv hyv
  have hb12 := playfair_pos_bound q1 q2 ⟨hq1.1, hq1.2.1⟩ ⟨hq2.1, hq2.2.1⟩
  have hpc' : out[p]? = some c := by rw [List.getElem?_eq_getElem hp, hpc]
  rcases Nat.mod_two_eq_zero_or_one p with hpar | hpar
  · have : 2 * (p / 2) = p := by omega
    rw [this, hpc'] at hx
    rw [Option.some.inj hx, ← hxv]
    exact table_cells_letters table htable _ _ hb12.1.1 hb12.1.2
  · have : 2 * (p / 2) + 1 = p := by omega
    rw [this, hpc'] at hy
    rw [Option.some.inj hy, ← hyv]
    exact table_cells_letters table htable _ _ hb12.2.1 hb12.2.2

/-! ## C19 : the table lookup in the pipeline -/

set_option maxRecDepth 100000 in
/-- C19 (as stated, refuted): with n = 1, the key [[2147483647]], whose entry is
non-negative, the plaintext "C" and the keyword "MONARCHY", the product 2147483647 * 2
does not fit an `int` and the Hill ciphertext is the character 63; the preprocessed text
is (63, 'X'), its first character is not a letter and is in no cell of the table, so
`r1`, `c1` stay unassigned and `main` has no defined result. -/
theorem main_lookup_counterexample :
    (∀ j k, j < 1 → k < 1 → 0 ≤ matrix_of [[2147483647]] j k)
    ∧ pad 1 (normalize (str "C")) = some (str "C")
    ∧ hill_encrypt 1 (matrix_of [[2147483647]]) (str "C") = some [63]
    ∧ playfair_preprocess [63] = some [63, 88]
    ∧ ¬ IsUpper 63
    ∧ (playfair_find (table_chars (build_table (sanitize_keyword (str "MONARCHY")))) 63 88).1
        = none
    ∧ (main 1 (matrix_of [[2147483647]]) (str "C") (str "MONARCHY")).isNone = true := by
  refine ⟨?_, by decide, by decide, by decide, by decide, by decide, by decide⟩
  intro j k hj hk
  obtain rfl : j = 0 := by omega
  obtain rfl : k = 0 := by omega
  decide

/-- C19 (amended): for every n ≥ 1, every n×n key matrix with non-negative entries,
every plaintext and every keyword string, such that no row sum of the Hill stage on the
padded plaintext exceeds 2^31 - 1 (the largest `int`), `main` returns; every character
of playfair_preprocess(Hill ciphertext) is a letter of A–Z other than J and is in a cell
of the table built from the sanitized keyword; the search loops of `playfair_encrypt`
assign (r1,c1) and (r2,c2) for every digraph; and the final Playfair ciphertext has the
same even length and consists only of letters of A–Z other than J. -/
theorem main_lookup_total (n : Nat) (hn : 1 ≤ n) (matrix : Nat → Nat → Int)
    (hnonneg : ∀ j k, j < n → k < n → 0 ≤ matrix j k)
    (raw_plain keyword_raw : List Int) (hchar : ∀ c ∈ keyword_raw, IsChar c)
    (hfit : ∀ padded, pad n (normalize raw_plain) = some padded →
      ∀ i j, j < n → i * n + j < padded.length →
        ∑ k ∈ Finset.range n, matrix j k * (padded.getD (i * n + k) 0 - 65) < 2147483648) :
    ∃ t, main n matrix raw_plain keyword_raw = some t
      ∧ pad n (normalize raw_plain) = some t.padded
      ∧ hill_encrypt n matrix t.padded = some t.hill
      ∧ playfair_preprocess t.hill = some t.pf_input
      ∧ t.table = build_table (sanitize_keyword keyword_raw)
      ∧ playfair_encrypt (table_chars t.table) t.pf_input = some t.playfair
      ∧ (∀ c ∈ t.pf_input, (IsUpper c ∧ c ≠ 74)
          ∧ ∃ r c', r < 5 ∧ c' < 5 ∧ table_chars t.table r c' = c)
      ∧ (∀ k a b, t.pf_input[2 * k]? = some a → t.pf_input[2 * k + 1]? = some b →
          ∃ p q, playfair_find (table_chars t.table) a b = (some p, some q))
      ∧ t.playfair.length = t.pf_input.length ∧ t.playfair.length % 2 = 0
      ∧ (∀ c ∈ t.playfair, IsUpper c ∧ c ≠ 74) := by
  obtain ⟨padded, hpad, hplen, hpup⟩ :=
    pad_letters n (by omega) (normalize raw_plain) (normalize_isUpper raw_plain)
  obtain ⟨hill, hhill, -, hhup⟩ :=
    hill_encrypt_letters n hn matrix hnonneg padded hpup hplen (hfit padded hpad)
  obtain ⟨pf, hpf, hpfe, hpfl⟩ := playfair_preprocess_letters hill hhup
  have htable := table_chars_unique_cell keyword_raw hchar
  obtain ⟨out, hout, houtl, houtu⟩ := playfair_encrypt_letters
    (table_chars (build_table (sanitize_keyword keyword_raw))) htable pf hpfl hpfe
  have hmain : main n matrix raw_plain keyword_raw
      = some { preprocessed := normalize raw_plain, padded := padded, hill := hill,
               keyword := sanitize_keyword keyword_raw,
               table := build_table (sanitize_keyword keyword_raw),
               pf_input := pf, playfair := out } := by
    unfold main
    simp only [hpad, hhill, hpf, hout]
  refine ⟨_, hmain, hpad, hhill, hpf, rfl, hout, ?_, ?_, houtl, by rw [houtl]; exact hpfe,
    houtu⟩
  · intro c hc
    have hl := hpfl c hc
    obtain ⟨q, hq, -⟩ := htable c hl.1 hl.2
    exact ⟨hl, q.1, q.2, hq⟩
  · intro k a b ha hb
    obtain ⟨p, q, -, -, hfind, -⟩ := playfair_pair_pos _ htable a b
      (hpfl a (List.getElem?_mem ha)) (hpfl b (List.getElem?_mem hb))
    exact ⟨p, q, hfind⟩

/-- C19 (amended) at n = 2, the key [[3,3],[2,5]], the plaintext "Hello!" and the keyword
"Monarchy". -/
theorem main_lookup_total_witness :
    ∃ t, main 2 (matrix_of [[3, 3], [2, 5]]) (str "Hello!") (str "Monarchy") = some t
      ∧ pad 2 (normalize (str "Hello!")) = some t.padded
      ∧ hill_encrypt 2 (matrix_of [[3, 3], [2, 5]]) t.padded = some t.hill
      ∧ playfair_preprocess t.hill = some t.pf_input
      ∧ t.table = build_table (sanitize_keyword (str "Monarchy"))
      ∧ playfair_encrypt (table_chars t.table) t.pf_input = some t.playfair
      ∧ (∀ c ∈ t.pf_input, (IsUpper c ∧ c ≠ 74)
          ∧ ∃ r c', r < 5 ∧ c' < 5 ∧ table_chars t.table r c' = c)
      ∧ (∀ k a b, t.pf_input[2 * k]? = some a → t.pf_input[2 * k + 1]? = some b →
          ∃ p q, playfair_find (table_chars t.table) a b = (some p, some q))
      ∧ t.playfair.length = t.pf_input.length ∧ t.playfair.length % 2 = 0
      ∧ (∀ c ∈ t.playfair, IsUpper c ∧ c ≠ 74) :=
  main_lookup_total 2 (by decide) (matrix_of [[3, 3], [2, 5]])
    (by intro j k hj hk; interval_cases j <;> interval_cases k <;> decide)
    (str "Hello!") (str "Monarchy") (by decide)
    (by
      intro padded hp i j hj hij
      have e : pad 2 (normalize (str "Hello!")) = some (str "HELLOX") := by decide
      rw [e] at hp
      cases hp
      have hi : i < 3 := by
        have : (str "HELLOX").length = 6 := by decide
        omega
      interval_cases i <;> interval_cases j <;>
        simp [Finset.sum_range_succ, matrix_of, str])

end HillPlayfair
